import Mathlib

/-!
Verification of the ERCHA archive tool (`src/ercha/lzw.py`, `src/ercha/rch.py`)
against its natural-language specification.

Bytes are modelled as `Nat` with explicit `< 256` bounds where relevant,
byte strings as `List Nat`.  The Python dictionaries of the LZW codec are
modelled as association lists in insertion order (Python dicts preserve
insertion order and the code never overwrites a key it later looks up).
Fallible Python code (`raise ValueError` / `raise KeyError` / `struct.error`)
is modelled with `Option` / `Except`.  The external `bz2` library is kept
abstract as a parameter (`BZ2`), since it is not part of this repository.
-/

set_option maxRecDepth 10000

namespace ERCHA

/-! ## Definitions: LZW codec — `src/ercha/lzw.py` -/

/-- First-match lookup in an association list keyed by byte strings
(Python `dict` lookup; the code never creates duplicate keys it reads). -/
def lookupStr : List (List Nat × Nat) → List Nat → Option Nat
  | [], _ => none
  | (k, v) :: rest, key => if k = key then some v else lookupStr rest key

/-- First-match lookup in an association list keyed by codes. -/
def lookupCode : List (Nat × List Nat) → Nat → Option (List Nat)
  | [], _ => none
  | (c, s) :: rest, code => if c = code then some s else lookupCode rest code

/-- The mutable state of `LZWBase`: `dictionary`, `reverse_dictionary`,
`next_code`. -/
structure LZWState where
  dictionary : List (List Nat × Nat)
  reverse_dictionary : List (Nat × List Nat)
  next_code : Nat
deriving Repr, DecidableEq

/-- `LZWBase.reset_dictionary`: the 256 single-byte strings, next code 256. -/
def reset_dictionary : LZWState where
  dictionary := (List.range 256).map fun i => ([i], i)
  reverse_dictionary := (List.range 256).map fun i => (i, [i])
  next_code := 256

/-- `LZWBase.can_add_to_dictionary`. -/
def can_add_to_dictionary (st : LZWState) : Bool :=
  st.next_code < 65536

/-- `LZWBase.add_to_dictionary`: insert only below the 65536 ceiling. -/
def add_to_dictionary (st : LZWState) (key value : List Nat) : LZWState :=
  if st.next_code < 65536 then
    { dictionary := st.dictionary ++ [(key, st.next_code)]
      reverse_dictionary := st.reverse_dictionary ++ [(st.next_code, value)]
      next_code := st.next_code + 1 }
  else st

/-- The `for symbol in data` loop of `LZWCompressor.encode`.
Returns the emitted codes, the final state and the final matched `string`.
`none` models the (unreachable) `KeyError` on `self.dictionary[string]`. -/
def encodeLoop : LZWState → List Nat → List Nat → Option (List Nat × LZWState × List Nat)
  | st, string, [] => some ([], st, string)
  | st, string, symbol :: rest =>
    let string_plus_symbol := string ++ [symbol]
    if (lookupStr st.dictionary string_plus_symbol).isSome then
      encodeLoop st string_plus_symbol rest
    else
      match lookupStr st.dictionary string with
      | none => none
      | some code =>
        match encodeLoop (add_to_dictionary st string_plus_symbol string_plus_symbol)
            [symbol] rest with
        | none => none
        | some (codes, st2, s2) => some (code :: codes, st2, s2)

/-- `LZWCompressor.encode` up to (but not including) `_to_bytes`:
the emitted code sequence, with the final flush of a non-empty `string`. -/
def lzwEncodeCodes (data : List Nat) : Option (List Nat) :=
  match encodeLoop reset_dictionary [] data with
  | none => none
  | some (codes, st, string) =>
    if string = [] then some codes
    else
      match lookupStr st.dictionary string with
      | none => none
      | some c => some (codes ++ [c])

/-- `code.to_bytes(2, byteorder='big')` (for codes below 65536). -/
def toBytesBE2 (code : Nat) : List Nat :=
  [code / 256, code % 256]

/-- `LZWCompressor.encode`: codes serialized as 2-byte big-endian integers. -/
def lzwEncode (data : List Nat) : Option (List Nat) :=
  (lzwEncodeCodes data).map fun codes => (codes.map toBytesBE2).flatten

/-- `LZWDecompressor._from_bytes`: 2-byte big-endian chunks; a final odd
byte forms a 1-byte chunk, `int.from_bytes` of which is the byte itself. -/
def from_bytes : List Nat → List Nat
  | [] => []
  | [b] => [b]
  | b1 :: b2 :: rest => (b1 * 256 + b2) :: from_bytes rest

/-- `LZWDecompressor._get_entry`: table hit, or the LZW self-reference case
`code == next_code`, else `None` (the `ValueError`). -/
def get_entry (st : LZWState) (code : Nat) (string : List Nat) : Option (List Nat) :=
  match lookupCode st.reverse_dictionary code with
  | some entry => some entry
  | none =>
    if code = st.next_code then some (string ++ string.take 1) else none

/-- The `for code in codes` loop of `LZWDecompressor.decode`. -/
def decodeLoop : LZWState → List Nat → List Nat → List Nat → Option (List Nat)
  | _, _, acc, [] => some acc
  | st, string, acc, code :: rest =>
    match get_entry st code string with
    | none => none
    | some entry =>
      decodeLoop (add_to_dictionary st (string ++ entry.take 1) (string ++ entry.take 1))
        entry (acc ++ entry) rest

/-- `LZWDecompressor.decode` after `_from_bytes`: fail on zero codes, resolve
the first code directly in `reverse_dictionary` (a `KeyError` if absent),
then run the loop. -/
def decodeCodes (codes : List Nat) : Option (List Nat) :=
  match codes with
  | [] => none
  | c0 :: rest =>
    match lookupCode reset_dictionary.reverse_dictionary c0 with
    | none => none
    | some string => decodeLoop reset_dictionary string string rest

/-- `LZWDecompressor.decode`. -/
def lzwDecode (encoded_data : List Nat) : Option (List Nat) :=
  decodeCodes (from_bytes encoded_data)

/-! ### Canonical dictionary states

Both the compressor and the decompressor only ever call `add_to_dictionary`
with `key = value`, starting from `reset_dictionary`; every dictionary state
either loop can reach is therefore `stateOf added` for the list `added` of
strings inserted so far, in order. -/

/-- The state after inserting `added` (each as its own key and value),
starting from the freshly reset dictionary. -/
def stateOf (added : List (List Nat)) : LZWState :=
  added.foldl (fun st w => add_to_dictionary st w w) reset_dictionary

/-- Pair the added strings with their codes, counting from `n`. -/
def pairUp : List (List Nat) → Nat → List (List Nat × Nat)
  | [], _ => []
  | w :: ws, n => (w, n) :: pairUp ws (n + 1)

/-- Pair the codes with the added strings, counting from `n`. -/
def pairUpR : List (List Nat) → Nat → List (Nat × List Nat)
  | [], _ => []
  | w :: ws, n => (n, w) :: pairUpR ws (n + 1)

/-- Modelled from the spec's words (§4.3 Decode): a code stream is valid when
each code after the first is either "present in the table" (the table holds
exactly the codes below the next free code) or "equal to the next code about
to be assigned"; the next free code starts at 256 and grows by one per
processed code until the 65536 ceiling.  Used as the spec-side predicate that
the decoder's failure behavior is compared against. -/
def specValidCodes : Nat → List Nat → Bool
  | _, [] => true
  | next, c :: rest =>
    decide (c ≤ next) && specValidCodes (if next < 65536 then next + 1 else next) rest

/-! ## Definitions: RCH container — `src/ercha/rch.py`, `src/ercha/config.py` -/

/-- `RCH_MAGIC = b'FR01'`. -/
def RCH_MAGIC : List Nat := [70, 82, 48, 49]

/-- `BLOCK_MAGIC = b'FZ'`. -/
def BLOCK_MAGIC : List Nat := [70, 90]

def ENCODING_XOR255_LZW : Nat := 0

def ENCODING_XOR255 : Nat := 1

def ENCODING_BZIP2 : Nat := 2

/-- The two Python exception classes the scan loops distinguish:
`ValueError` (and its subclasses), which the loops catch, and
`struct.error`, which they do not. -/
inductive PyErr where
  | valueError : PyErr
  | structError : PyErr
deriving Repr, DecidableEq

/-- `RCH.xor255`: byte-wise complement. -/
def xor255 (data : List Nat) : List Nat :=
  data.map fun b => b ^^^ 255

/-- The external `bz2` library (`BZ2Compressor(level).compress + flush`, and
`bz2.decompress`, which can raise).  Not part of this repository, so kept
abstract; theorems that depend on it take its round-trip contract as a
hypothesis. -/
structure BZ2 where
  compress : List Nat → List Nat
  decompress : List Nat → Option (List Nat)

/-- `zlib.crc32`: one bit of the reflected CRC-32 (polynomial 0xEDB88320). -/
def crc32Round (c : Nat) : Nat :=
  if c % 2 = 1 then (c / 2) ^^^ 0xEDB88320 else c / 2

/-- `zlib.crc32`: fold one byte into the running CRC. -/
def crc32Byte (crc b : Nat) : Nat :=
  crc32Round^[8] (crc ^^^ b)

/-- `zlib.crc32(data) & 0xFFFFFFFF`. -/
def crc32 (data : List Nat) : Nat :=
  (data.foldl crc32Byte 0xFFFFFFFF) ^^^ 0xFFFFFFFF

/-- `RCH.check_crc`: computes the CRC and raises `ValueError` on mismatch
(it returns `True` whenever it returns at all). -/
def check_crc (data : List Nat) (crc32_stored : Nat) : Option Bool :=
  if crc32 data = crc32_stored then some true else none

/-- `RCH.encode_file_data`, dispatched on the configured algorithm. -/
def encode_file_data (bz : BZ2) (encoding_algorithm : Nat) (file_data : List Nat) :
    Option (List Nat) :=
  if encoding_algorithm = ENCODING_BZIP2 then some (bz.compress file_data)
  else if encoding_algorithm = ENCODING_XOR255_LZW then lzwEncode (xor255 file_data)
  else if encoding_algorithm = ENCODING_XOR255 then some (xor255 file_data)
  else none

/-- `RCH.decode_data`, dispatched on the block's algorithm id; every failure
is re-raised as `ValueError`. -/
def decode_data (bz : BZ2) (file_data : List Nat) (encoding_algo : Nat) :
    Option (List Nat) :=
  if encoding_algo = ENCODING_BZIP2 then bz.decompress file_data
  else if encoding_algo = ENCODING_XOR255_LZW then (lzwDecode file_data).map xor255
  else if encoding_algo = ENCODING_XOR255 then some (xor255 file_data)
  else none

/-- `RCH._calculate_crc32`: raw payload for BZIP2, encoded bytes otherwise. -/
def calculate_crc32 (encoding_algorithm : Nat) (file_data encoded_data : List Nat) : Nat :=
  if encoding_algorithm = ENCODING_BZIP2 then crc32 file_data else crc32 encoded_data

/-- `RCH._process_file_data`: decode, then check the CRC over the decoded
bytes for BZIP2 and over the stored bytes otherwise. -/
def process_file_data (bz : BZ2) (file_data : List Nat) (encoding_algo : Nat)
    (crc32_stored : Nat) : Option (List Nat × Bool) :=
  match decode_data bz file_data encoding_algo with
  | none => none
  | some output_data =>
    match check_crc (if encoding_algo = ENCODING_BZIP2 then output_data else file_data)
        crc32_stored with
    | none => none
    | some crc_valid => some (output_data, crc_valid)

/-- `RCH._verify_crc` (the `check` path). -/
def verify_crc (bz : BZ2) (file_data : List Nat) (encoding_algo : Nat)
    (crc32_stored : Nat) : Option Bool :=
  if encoding_algo = ENCODING_BZIP2 then
    match decode_data bz file_data encoding_algo with
    | none => none
    | some deencoded_data => check_crc deencoded_data crc32_stored
  else check_crc file_data crc32_stored

/-- `struct.pack('<I', n)` (for `n` below 2^32). -/
def le4 (n : Nat) : List Nat :=
  [n % 256, n / 256 % 256, n / 256 ^ 2 % 256, n / 256 ^ 3 % 256]

/-- Little-endian `u32` from four bytes (`struct.unpack('<I', ...)`). -/
def u32le (b0 b1 b2 b3 : Nat) : Nat :=
  b0 + b1 * 256 + b2 * 256 ^ 2 + b3 * 256 ^ 3

/-- `bytes.ljust(width, fill)`: pads, never truncates. -/
def ljust (s : List Nat) (width : Nat) (fill : Nat) : List Nat :=
  s ++ List.replicate (width - s.length) fill

/-- `bytes.split(b'\x00', 1)[0]`: the prefix before the first NUL. -/
def splitNull (bs : List Nat) : List Nat :=
  bs.takeWhile fun b => b ≠ 0

/-- `bytes.decode('utf-8')` (strict): the list of decoded code points, or
`none` for `UnicodeDecodeError` (a `ValueError` subclass) when the bytes
are not valid UTF-8 — lead bytes `0x80`–`0xC1` and `0xF5` up, truncated
sequences, stray or overlong continuations, surrogates (`0xED 0xA0`–) and
values above `U+10FFFF` (`0xF4 0x90`–) are all rejected. -/
def utf8Decode : List Nat → Option (List Nat)
  | [] => some []
  | b :: rest =>
    if b < 128 then (utf8Decode rest).map fun t => b :: t
    else if b < 194 then none
    else if b < 224 then
      match rest with
      | b1 :: rest2 =>
        if 128 ≤ b1 ∧ b1 < 192 then
          (utf8Decode rest2).map fun t => ((b - 192) * 64 + (b1 - 128)) :: t
        else none
      | [] => none
    else if b < 240 then
      match rest with
      | b1 :: b2 :: rest2 =>
        if (if b = 224 then 160 ≤ b1 ∧ b1 < 192
            else if b = 237 then 128 ≤ b1 ∧ b1 < 160
            else 128 ≤ b1 ∧ b1 < 192) ∧ 128 ≤ b2 ∧ b2 < 192 then
          (utf8Decode rest2).map fun t =>
            ((b - 224) * 4096 + (b1 - 128) * 64 + (b2 - 128)) :: t
        else none
      | _ => none
    else if b < 245 then
      match rest with
      | b1 :: b2 :: b3 :: rest2 =>
        if (if b = 240 then 144 ≤ b1 ∧ b1 < 192
            else if b = 244 then 128 ≤ b1 ∧ b1 < 144
            else 128 ≤ b1 ∧ b1 < 192) ∧ 128 ≤ b2 ∧ b2 < 192 ∧
            128 ≤ b3 ∧ b3 < 192 then
          (utf8Decode rest2).map fun t =>
            ((b - 240) * 262144 + (b1 - 128) * 4096 + (b2 - 128) * 64 + (b3 - 128)) :: t
        else none
      | _ => none
    else none

/-- `RCH.write_block_to_file`: the bytes one block contributes to the
archive.  `struct.pack('<I I I I I', 1, 0, len(encoded_data), crc32,
self.encoding_algorithm)` after the magic and the name field. -/
def write_block_to_file (encoding_algorithm : Nat) (filename encoded_data : List Nat)
    (crc32v : Nat) : List Nat :=
  BLOCK_MAGIC ++ ljust filename 40 0 ++
    le4 1 ++ le4 0 ++ le4 encoded_data.length ++ le4 crc32v ++ le4 encoding_algorithm ++
    encoded_data

/-- `RCH._write_rch_header`: the 28 header bytes. -/
def write_rch_header : List Nat :=
  RCH_MAGIC ++ le4 1 ++ le4 0 ++ List.replicate 16 0

/-- `RCH.read_rch_header`: validate the 4 magic bytes (`ValueError` on
mismatch), then consume and discard 24 more. -/
def read_rch_header (s : List Nat) : Except PyErr (List Nat) :=
  if s.take 4 ≠ RCH_MAGIC then Except.error PyErr.valueError
  else Except.ok ((s.drop 4).drop 24)

/-- `RCH.read_file_block_header`: 2 magic bytes (`ValueError` on mismatch or
end of stream); the 40-byte name field, whose pre-NUL bytes are decoded as
UTF-8 (`UnicodeDecodeError`, a `ValueError` subclass, on invalid bytes —
raised before the field read below); then `struct.unpack('<I I I I I')`
(`struct.error`, not caught by the scan loops, if fewer than 20 bytes
remain).  Returns, in source order, `(filename-as-code-points, size, crc,
algorithm, reserved-field-read-as-timestamp, rest-of-stream)`. -/
def read_file_block_header (s : List Nat) :
    Except PyErr (List Nat × Nat × Nat × Nat × Nat × List Nat) :=
  if s.take 2 ≠ BLOCK_MAGIC then Except.error PyErr.valueError
  else
    let s1 := s.drop 2
    let nameField := s1.take 40
    let s2 := s1.drop 40
    match utf8Decode (splitNull nameField) with
    | none => Except.error PyErr.valueError
    | some filename =>
      let hdr := s2.take 20
      if hdr.length ≠ 20 then Except.error PyErr.structError
      else
        let _f0 := u32le (hdr.getD 0 0) (hdr.getD 1 0) (hdr.getD 2 0) (hdr.getD 3 0)
        let f1 := u32le (hdr.getD 4 0) (hdr.getD 5 0) (hdr.getD 6 0) (hdr.getD 7 0)
        let f2 := u32le (hdr.getD 8 0) (hdr.getD 9 0) (hdr.getD 10 0) (hdr.getD 11 0)
        let f3 := u32le (hdr.getD 12 0) (hdr.getD 13 0) (hdr.getD 14 0) (hdr.getD 15 0)
        let f4 := u32le (hdr.getD 16 0) (hdr.getD 17 0) (hdr.getD 18 0) (hdr.getD 19 0)
        Except.ok (filename, f2, f3, f4, f1, s2.drop 20)

/-- Python `s[:n]` with a possibly negative `n` (negative indices count from
the end, clamped at zero). -/
def pySliceTo (s : List Nat) (n : Int) : List Nat :=
  if 0 ≤ n then s.take n.toNat else s.take (s.length - (-n).toNat)

/-- The index of the last occurrence of `c` (`str.rfind`), if any. -/
def rfindIdx (c : Nat) : List Nat → Option Nat
  | [] => none
  | a :: rest =>
    match rfindIdx c rest with
    | some i => some (i + 1)
    | none => if a = c then some 0 else none

/-- `os.path.basename` (POSIX): everything after the last slash. -/
def pathBasename (p : List Nat) : List Nat :=
  match rfindIdx 47 p with
  | none => p
  | some i => p.drop (i + 1)

/-- `os.path.splitext` on a slash-free name: split at the last dot, unless
every character before it is itself a dot (leading dots are not an
extension). -/
def splitext (p : List Nat) : List Nat × List Nat :=
  match rfindIdx 46 p with
  | none => (p, [])
  | some i =>
    if (p.take i).any (fun ch => ch ≠ 46) then (p.take i, p.drop i) else (p, [])

/-- `RCH._sanitize_filename`: basename, then (if longer than 255 characters)
`root[:255 - len(ext)] + ext`.  Names are lists of code points. -/
def sanitize_filename (filename : List Nat) : List Nat :=
  let sanitized := pathBasename filename
  if 255 < sanitized.length then
    pySliceTo (splitext sanitized).1 (255 - ((splitext sanitized).2.length : Int)) ++
      (splitext sanitized).2
  else sanitized

/-- `RCH.get_encoding_name`. -/
def get_encoding_name (encoding_algo : Nat) : String :=
  if encoding_algo = ENCODING_BZIP2 then "BZIP2"
  else if encoding_algo = ENCODING_XOR255_LZW then "XOR255+LZW"
  else if encoding_algo = ENCODING_XOR255 then "XOR255"
  else "Unknown"

/-- The per-file record the archive operations return. -/
structure ResultEntry where
  filename : List Nat
  size : Nat
  crc32v : Nat
  encoding : String
  crc_passed : Bool
  timestamp : Nat
  status : String
deriving Repr, DecidableEq

/-- `RCH._create_result_entry`. -/
def create_result_entry (filename : List Nat) (filesize crc32_stored encoding_algo : Nat)
    (crc_valid : Bool) (timestamp : Nat) (status : String) : ResultEntry where
  filename := filename
  size := filesize
  crc32v := crc32_stored
  encoding := get_encoding_name encoding_algo
  crc_passed := crc_valid
  timestamp := timestamp
  status := status

/-- Whether `unpack_rch` processes a block:
`if not filenames or filename in filenames`. -/
def filenameSelected (filenames : Option (List (List Nat))) (filename : List Nat) : Bool :=
  match filenames with
  | none => true
  | some fs => fs.isEmpty || fs.contains filename

/-- The `while True` scan loop of `RCH.unpack_rch`, with the stream as an
explicit byte list and file writes collected as `(name, bytes)` pairs.
`fuel` bounds the iteration count; each iteration consumes at least the
62-byte block header, so `stream length + 1` is always enough.
A `ValueError` from a block ends the scan benignly; a `struct.error`
propagates. -/
def unpackLoop (bz : BZ2) (force : Bool) (filenames : Option (List (List Nat))) :
    Nat → List Nat → Except PyErr (List ResultEntry × List (List Nat × List Nat))
  | 0, _ => Except.ok ([], [])
  | fuel + 1, s =>
    match read_file_block_header s with
    | Except.error PyErr.valueError => Except.ok ([], [])
    | Except.error PyErr.structError => Except.error PyErr.structError
    | Except.ok (filename, filesize, crc32_stored, encoding_algo, timestamp, s1) =>
      let safe_filename := sanitize_filename filename
      let file_data := s1.take filesize
      let s2 := s1.drop filesize
      if filenameSelected filenames filename then
        match process_file_data bz file_data encoding_algo crc32_stored with
        | some (output_data, crc_valid) =>
          if ¬ crc_valid ∧ ¬ force then
            -- the explicit `raise ValueError("CRC check failed.")`, caught below
            match unpackLoop bz force filenames fuel s2 with
            | Except.error e => Except.error e
            | Except.ok (results, writes) =>
              Except.ok (create_result_entry safe_filename filesize crc32_stored
                encoding_algo false timestamp "Failed" :: results, writes)
          else
            match unpackLoop bz force filenames fuel s2 with
            | Except.error e => Except.error e
            | Except.ok (results, writes) =>
              Except.ok (create_result_entry safe_filename filesize crc32_stored
                  encoding_algo crc_valid timestamp
                  (if crc_valid ∨ force then "Unpacked" else "Failed") :: results,
                (safe_filename, output_data) :: writes)
        | none =>
          match unpackLoop bz force filenames fuel s2 with
          | Except.error e => Except.error e
          | Except.ok (results, writes) =>
            Except.ok (create_result_entry safe_filename filesize crc32_stored
              encoding_algo false timestamp "Failed" :: results, writes)
      else
        unpackLoop bz force filenames fuel s2

/-- `RCH.unpack_rch`: read the header, then scan blocks to end of stream. -/
def unpack_rch (bz : BZ2) (force : Bool) (s : List Nat)
    (filenames : Option (List (List Nat))) :
    Except PyErr (List ResultEntry × List (List Nat × List Nat)) :=
  match read_rch_header s with
  | Except.error e => Except.error e
  | Except.ok s1 => unpackLoop bz force filenames (s1.length + 1) s1

/-- The scan loop of `RCH.detract_file`: re-emit each block (the original
`2 + 40 + 4*5 + filesize` bytes, verbatim) unless its name matches. -/
def detractLoop (file_to_remove : List Nat) :
    Nat → List Nat → Except PyErr (Bool × List Nat)
  | 0, _ => Except.ok (false, [])
  | fuel + 1, s =>
    match read_file_block_header s with
    | Except.error PyErr.valueError => Except.ok (false, [])
    | Except.error PyErr.structError => Except.error PyErr.structError
    | Except.ok (filename, filesize, _, _, _, s1) =>
      let s2 := s1.drop filesize
      match detractLoop file_to_remove fuel s2 with
      | Except.error e => Except.error e
      | Except.ok (removed, out) =>
        if filename ≠ file_to_remove then
          Except.ok (removed, s.take (2 + 40 + 4 * 5 + filesize) ++ out)
        else
          Except.ok (true, out)

/-- `RCH.detract_file`: copy the 28 header bytes verbatim, scan, and replace
the archive with the temp file only when a match was removed (otherwise the
temp file is discarded and the archive is untouched).  Returns
`(file_removed, resulting archive bytes)`. -/
def detract_file (s : List Nat) (file_to_remove : List Nat) :
    Except PyErr (Bool × List Nat) :=
  let header := s.take 28
  let rest := s.drop 28
  match detractLoop file_to_remove (rest.length + 1) rest with
  | Except.error e => Except.error e
  | Except.ok (removed, out) =>
    Except.ok (removed, if removed then header ++ out else s)

/-- `RCH.detract_files`: remove the requested names one at a time, threading
the archive state; returns the removed and not-removed names and the final
archive bytes. -/
def detract_files (s : List Nat) : List (List Nat) →
    Except PyErr (List (List Nat) × List (List Nat) × List Nat)
  | [] => Except.ok ([], [], s)
  | f :: fs =>
    match detract_file s f with
    | Except.error e => Except.error e
    | Except.ok (removed, s1) =>
      match detract_files s1 fs with
      | Except.error e => Except.error e
      | Except.ok (removed_files, not_removed_files, s2) =>
        if removed then
          Except.ok (f :: removed_files, not_removed_files, s2)
        else
          Except.ok (removed_files, f :: not_removed_files, s2)

/-! ### Archives as block lists -/

/-- An on-disk block, with the name field stored verbatim (40 bytes when
well-formed) and the four scalar header fields. -/
structure Block where
  nameField : List Nat
  version : Nat
  reserved : Nat
  crcField : Nat
  alg : Nat
  payload : List Nat
deriving Repr, DecidableEq

/-- The bytes of one block: magic, name field, `<I I I I I>` header fields
(version, reserved, payload length, checksum, algorithm), payload. -/
def blockBytes (B : Block) : List Nat :=
  BLOCK_MAGIC ++ B.nameField ++ le4 B.version ++ le4 B.reserved ++
    le4 B.payload.length ++ le4 B.crcField ++ le4 B.alg ++ B.payload

/-- Header fields in `u32` range, name field exactly 40 bytes whose pre-NUL
bytes decode as UTF-8 (as every name field written by the pack path does,
being the `ljust` of an encoded `str`). -/
def wfBlock (B : Block) : Prop :=
  B.nameField.length = 40 ∧ (utf8Decode (splitNull B.nameField)).isSome = true ∧
    B.payload.length < 2 ^ 32 ∧ B.version < 2 ^ 32 ∧
    B.reserved < 2 ^ 32 ∧ B.crcField < 2 ^ 32 ∧ B.alg < 2 ^ 32

/-- The name a scan recovers from a block: the UTF-8 decoding (as code
points) of the name field up to the first NUL. -/
def parsedName (B : Block) : List Nat :=
  (utf8Decode (splitNull B.nameField)).getD []

/-- The byte stream of a sequence of blocks. -/
def joinBlocks (bs : List Block) : List Nat :=
  (bs.map blockBytes).flatten

/-! ## Theorems: association-list and dictionary-state lemmas -/

theorem lookupCode_append_some {l1 l2 : List (Nat × List Nat)} {c : Nat} {s : List Nat}
    (h : lookupCode l1 c = some s) : lookupCode (l1 ++ l2) c = some s := by
  induction l1 with
  | nil => simp [lookupCode] at h
  | cons p rest ih =>
    obtain ⟨k, v⟩ := p
    simp only [lookupCode] at h ⊢
    split
    · split at h <;> simp_all
    · split at h
      · simp_all
      · exact ih h

theorem lookupCode_append_none {l1 l2 : List (Nat × List Nat)} {c : Nat}
    (h : lookupCode l1 c = none) : lookupCode (l1 ++ l2) c = lookupCode l2 c := by
  induction l1 with
  | nil => simp
  | cons p rest ih =>
    obtain ⟨k, v⟩ := p
    simp only [lookupCode] at h ⊢
    split at h
    · exact absurd h (by simp)
    · rename_i hk
      rw [if_neg hk]
      exact ih h

theorem lookupStr_append_some {l1 l2 : List (List Nat × Nat)} {k : List Nat} {c : Nat}
    (h : lookupStr l1 k = some c) : lookupStr (l1 ++ l2) k = some c := by
  induction l1 with
  | nil => simp [lookupStr] at h
  | cons p rest ih =>
    obtain ⟨k0, v⟩ := p
    simp only [lookupStr] at h ⊢
    split
    · split at h <;> simp_all
    · split at h
      · simp_all
      · exact ih h

theorem lookupStr_append_none {l1 l2 : List (List Nat × Nat)} {k : List Nat}
    (h : lookupStr l1 k = none) : lookupStr (l1 ++ l2) k = lookupStr l2 k := by
  induction l1 with
  | nil => simp
  | cons p rest ih =>
    obtain ⟨k0, v⟩ := p
    simp only [lookupStr] at h ⊢
    split at h
    · exact absurd h (by simp)
    · rename_i hk
      rw [if_neg hk]
      exact ih h

theorem lookupCode_initRev (n c : Nat) :
    lookupCode ((List.range n).map fun i => (i, [i])) c =
      if c < n then some [c] else none := by
  induction n with
  | zero => simp [lookupCode]
  | succ m ih =>
    rw [List.range_succ, List.map_append, List.map_singleton]
    by_cases hlt : c < m
    · have hsome : lookupCode ((List.range m).map fun i => (i, [i])) c = some [c] := by
        rw [ih]; simp [hlt]
      rw [lookupCode_append_some hsome]
      simp [Nat.lt_succ_of_lt hlt]
    · rw [lookupCode_append_none (by rw [ih]; simp [hlt])]
      by_cases heq : c = m
      · subst heq; simp [lookupCode, Nat.lt_succ_self]
      · have hge : ¬ c < m + 1 := by omega
        simp [lookupCode, heq, hge, Ne.symm heq]

theorem lookupStr_mapSingles_not_mem {b : Nat} {l : List Nat} (hb : b ∉ l) :
    lookupStr (l.map fun i => ([i], i)) [b] = none := by
  induction l with
  | nil => rfl
  | cons x rest ih =>
    have hx : ¬ ([x] = [b]) := by
      simp only [List.mem_cons, not_or] at hb
      simp [Ne.symm hb.1]
    simp only [List.map_cons, lookupStr, if_neg hx]
    exact ih (by simp only [List.mem_cons, not_or] at hb; exact hb.2)

theorem lookupStr_initDict_singleton {n b : Nat} (hb : b < n) :
    lookupStr ((List.range n).map fun i => ([i], i)) [b] = some b := by
  induction n with
  | zero => omega
  | succ m ih =>
    rw [List.range_succ, List.map_append, List.map_singleton]
    by_cases hlt : b < m
    · exact lookupStr_append_some (ih hlt)
    · have hb' : b = m := by omega
      subst hb'
      rw [lookupStr_append_none (lookupStr_mapSingles_not_mem (by simp))]
      simp [lookupStr]

theorem lookupStr_initDict_inv {n : Nat} {k : List Nat} {c : Nat}
    (h : lookupStr ((List.range n).map fun i => ([i], i)) k = some c) :
    k = [c] ∧ c < n := by
  induction n with
  | zero => simp [lookupStr] at h
  | succ m ih =>
    rw [List.range_succ, List.map_append, List.map_singleton] at h
    cases hfst : lookupStr ((List.range m).map fun i => ([i], i)) k with
    | some c0 =>
      rw [lookupStr_append_some hfst] at h
      cases h
      obtain ⟨hk, hc⟩ := ih hfst
      exact ⟨hk, Nat.lt_succ_of_lt hc⟩
    | none =>
      rw [lookupStr_append_none hfst] at h
      simp only [lookupStr] at h
      split at h
      · rename_i heq
        cases h
        exact ⟨heq.symm, by omega⟩
      · simp at h

theorem pairUpR_append (ws : List (List Nat)) (w : List Nat) (n : Nat) :
    pairUpR (ws ++ [w]) n = pairUpR ws n ++ [(n + ws.length, w)] := by
  induction ws generalizing n with
  | nil => simp [pairUpR]
  | cons x rest ih =>
    have harith : n + 1 + rest.length = n + (rest.length + 1) := by omega
    simp only [List.cons_append, pairUpR, List.append_eq, ih (n + 1), List.length_cons, harith]

theorem pairUp_append (ws : List (List Nat)) (w : List Nat) (n : Nat) :
    pairUp (ws ++ [w]) n = pairUp ws n ++ [(w, n + ws.length)] := by
  induction ws generalizing n with
  | nil => simp [pairUp]
  | cons x rest ih =>
    have harith : n + 1 + rest.length = n + (rest.length + 1) := by omega
    simp only [List.cons_append, pairUp, List.append_eq, ih (n + 1), List.length_cons, harith]

theorem lookupCode_pairUpR_lt {ws : List (List Nat)} {n c : Nat} (h : c < n) :
    lookupCode (pairUpR ws n) c = none := by
  induction ws generalizing n with
  | nil => rfl
  | cons w rest ih =>
    simp only [pairUpR, lookupCode, if_neg (by omega : ¬ n = c)]
    exact ih (by omega)

theorem lookupCode_pairUpR_ge {ws : List (List Nat)} {n c : Nat} (h : n ≤ c) :
    lookupCode (pairUpR ws n) c = ws.get? (c - n) := by
  induction ws generalizing n with
  | nil => simp [pairUpR, lookupCode]
  | cons w rest ih =>
    simp only [pairUpR, lookupCode]
    by_cases heq : n = c
    · subst heq
      simp [Nat.sub_self]
    · rw [if_neg heq, ih (by omega)]
      have hc : c - n = (c - (n + 1)) + 1 := by omega
      rw [hc]
      rfl

theorem lookupStr_pairUp_inv {ws : List (List Nat)} {n c : Nat} {k : List Nat}
    (h : lookupStr (pairUp ws n) k = some c) :
    ∃ j, j < ws.length ∧ ws.get? j = some k ∧ c = n + j := by
  induction ws generalizing n with
  | nil => simp [pairUp, lookupStr] at h
  | cons w rest ih =>
    simp only [pairUp, lookupStr] at h
    split at h
    · rename_i heq
      cases h
      exact ⟨0, by simp, by simp [heq], by omega⟩
    · obtain ⟨j, hj, hget, hc⟩ := ih h
      exact ⟨j + 1, by simp; omega, by simpa using hget, by omega⟩

/-- Closed form of the canonical dictionary states: the first `65280` added
strings (the 65536-code ceiling minus 256 seed entries) are live, in order. -/
theorem stateOf_eq (A : List (List Nat)) :
    stateOf A =
      { dictionary := reset_dictionary.dictionary ++ pairUp (A.take 65280) 256
        reverse_dictionary :=
          reset_dictionary.reverse_dictionary ++ pairUpR (A.take 65280) 256
        next_code := 256 + (A.take 65280).length } := by
  induction A using List.reverseRecOn with
  | nil => simp [stateOf, pairUp, pairUpR, reset_dictionary]
  | append_singleton A w ih =>
    have hfold : stateOf (A ++ [w]) = add_to_dictionary (stateOf A) w w := by
      simp [stateOf, List.foldl_append]
    rw [hfold, ih]
    by_cases hlen : A.length < 65280
    · have htakeA : A.take 65280 = A := List.take_of_length_le (by omega)
      have htake : (A ++ [w]).take 65280 = A ++ [w] :=
        List.take_of_length_le (by simp; omega)
      have hnext : 256 + (A.take 65280).length < 65536 := by
        rw [htakeA]; omega
      simp only [add_to_dictionary, if_pos hnext]
      rw [htake, htakeA]
      simp only [pairUp_append, pairUpR_append, List.length_append, List.length_singleton]
      simp [htakeA]
      omega
    · have hlentake : (A.take 65280).length = 65280 := by
        rw [List.length_take]; omega
      have htake : (A ++ [w]).take 65280 = A.take 65280 := by
        rw [List.take_append_eq_append_take, show 65280 - A.length = 0 by omega]
        simp
      rw [htake]
      simp [add_to_dictionary, hlentake]

theorem stateOf_next_code (A : List (List Nat)) :
    (stateOf A).next_code = 256 + min A.length 65280 := by
  rw [stateOf_eq]
  simp [List.length_take, Nat.min_comm]

theorem stateOf_concat (A : List (List Nat)) (w : List Nat) :
    stateOf (A ++ [w]) = add_to_dictionary (stateOf A) w w := by
  simp [stateOf, List.foldl_append]

/-- Reverse-dictionary lookup in a canonical state: the seed table below 256,
then the live added strings positionally. -/
theorem lookupCode_stateOf (A : List (List Nat)) (c : Nat) :
    lookupCode (stateOf A).reverse_dictionary c =
      if c < 256 then some [c] else (A.take 65280).get? (c - 256) := by
  rw [stateOf_eq]
  by_cases hc : c < 256
  · have hsome : lookupCode reset_dictionary.reverse_dictionary c = some [c] := by
      unfold reset_dictionary
      rw [lookupCode_initRev]
      simp [hc]
    simp only [lookupCode_append_some hsome]
    rw [if_pos hc]
  · have hnone : lookupCode reset_dictionary.reverse_dictionary c = none := by
      unfold reset_dictionary
      rw [lookupCode_initRev]
      simp [hc]
    simp only [lookupCode_append_none hnone]
    rw [if_neg hc, lookupCode_pairUpR_ge (by omega)]

theorem lookupStr_stateOf_singleton (A : List (List Nat)) {b : Nat} (hb : b < 256) :
    lookupStr (stateOf A).dictionary [b] = some b := by
  rw [stateOf_eq]
  exact lookupStr_append_some (lookupStr_initDict_singleton hb)

/-- Inverse correspondence: whatever string the compressor's dictionary maps
to a code, the decompressor's reverse dictionary maps that code back to it. -/
theorem lookupStr_stateOf_inv {A : List (List Nat)} {s : List Nat} {c : Nat}
    (h : lookupStr (stateOf A).dictionary s = some c) :
    lookupCode (stateOf A).reverse_dictionary c = some s := by
  rw [stateOf_eq] at h
  rw [lookupCode_stateOf]
  cases hfst : lookupStr reset_dictionary.dictionary s with
  | some c0 =>
    rw [lookupStr_append_some hfst] at h
    cases h
    have hinv := lookupStr_initDict_inv (n := 256) (by simpa [reset_dictionary] using hfst)
    rw [if_pos hinv.2, hinv.1]
  | none =>
    rw [lookupStr_append_none hfst] at h
    obtain ⟨j, hj, hget, hc⟩ := lookupStr_pairUp_inv h
    rw [if_neg (by omega), hc]
    simpa using hget

/-- Every code the compressor's dictionary can produce is below 65536. -/
theorem lookupStr_stateOf_lt {A : List (List Nat)} {s : List Nat} {c : Nat}
    (h : lookupStr (stateOf A).dictionary s = some c) : c < 65536 := by
  rw [stateOf_eq] at h
  cases hfst : lookupStr reset_dictionary.dictionary s with
  | some c0 =>
    rw [lookupStr_append_some hfst] at h
    cases h
    have hinv := lookupStr_initDict_inv (n := 256) (by simpa [reset_dictionary] using hfst)
    omega
  | none =>
    rw [lookupStr_append_none hfst] at h
    obtain ⟨j, hj, hget, hc⟩ := lookupStr_pairUp_inv h
    have := List.length_take 65280 A
    omega

/-! ## Theorems: the LZW round trip -/

theorem take_one_append {w t : List Nat} (hw : w ≠ []) : (w ++ t).take 1 = w.take 1 := by
  cases w with
  | nil => exact absurd rfl hw
  | cons x xs => simp

/-- Core correspondence: if the compressor, one insertion ahead of the
decompressor (the classic LZW lag), maps `s` to code `cs`, then the
decompressor resolves `cs` to `s` — through its table, or through the
self-reference case `code == next_code`. -/
theorem get_entry_sim {B : List (List Nat)} {w s : List Nat} {cs : Nat}
    (hw : w ≠ []) (hs : s ≠ [])
    (hlook : lookupStr (stateOf (B ++ [w ++ s.take 1])).dictionary s = some cs) :
    get_entry (stateOf B) cs w = some s := by
  have hinv := lookupStr_stateOf_inv hlook
  rw [lookupCode_stateOf] at hinv
  unfold get_entry
  rw [lookupCode_stateOf]
  by_cases hc : cs < 256
  · rw [if_pos hc] at hinv ⊢
    obtain rfl : [cs] = s := by injection hinv
    rfl
  · rw [if_neg hc] at hinv ⊢
    by_cases hB : B.length < 65280
    · have htakeB : B.take 65280 = B := List.take_of_length_le (by omega)
      have htake : (B ++ [w ++ s.take 1]).take 65280 = B ++ [w ++ s.take 1] :=
        List.take_of_length_le (by simp; omega)
      rw [htake] at hinv
      rw [htakeB]
      by_cases hidx : cs - 256 < B.length
      · rw [List.get?_append hidx] at hinv
        rw [hinv]
      · rw [List.get?_append_right (by omega)] at hinv
        by_cases hidx2 : cs - 256 - B.length = 0
        · rw [hidx2] at hinv
          have hse : w ++ s.take 1 = s := by injection hinv
          have hnone : B.get? (cs - 256) = none := List.get?_eq_none.mpr (by omega)
          rw [hnone]
          have hnext : cs = (stateOf B).next_code := by
            rw [stateOf_next_code]
            omega
          rw [if_pos hnext]
          have htk : s.take 1 = w.take 1 := by
            conv_lhs => rw [← hse]
            exact take_one_append hw
          have hgoal : w ++ w.take 1 = s := by rw [← htk]; exact hse
          rw [hgoal]
        · rw [List.get?_eq_none.mpr (by simp; omega)] at hinv
          cases hinv
    · have htake : (B ++ [w ++ s.take 1]).take 65280 = B.take 65280 := by
        rw [List.take_append_eq_append_take, show 65280 - B.length = 0 by omega]
        simp
      rw [htake] at hinv
      rw [hinv]

/-- Simulation of `LZWCompressor.encode`'s loop by `LZWDecompressor.decode`'s
loop.  From a dictionary state `stateOf A`, a non-empty current `string` `s`
that the dictionary maps to `cs`, and any remaining input of bytes:

* the encode loop succeeds, emitting `codes` and ending in a canonical state
  with a non-empty final string `s2` mapped to `cs2`;
* every emitted code (including the final flush code `cs2`) is below 65536;
* the decode loop, run one insertion behind (state `stateOf B` and previous
  emitted string `w`, where `A = B ++ [w ++ s.take 1]`), consumes
  `codes ++ [cs2]` and emits exactly `s ++ input`. -/
theorem encodeLoop_sim :
    ∀ (input : List Nat) (A : List (List Nat)) (s : List Nat) (cs : Nat),
      (∀ b ∈ input, b < 256) → s ≠ [] →
      lookupStr (stateOf A).dictionary s = some cs →
      ∃ codes A2 s2 cs2,
        encodeLoop (stateOf A) s input = some (codes, stateOf (A ++ A2), s2)
        ∧ s2 ≠ []
        ∧ lookupStr (stateOf (A ++ A2)).dictionary s2 = some cs2
        ∧ (∀ c ∈ codes ++ [cs2], c < 65536)
        ∧ ∀ (B : List (List Nat)) (w acc : List Nat),
            w ≠ [] → A = B ++ [w ++ s.take 1] →
            decodeLoop (stateOf B) w acc (codes ++ [cs2]) = some (acc ++ (s ++ input)) := by
  intro input
  induction input with
  | nil =>
    intro A s cs hbytes hs hlook
    refine ⟨[], [], s, cs, ?_, hs, ?_, ?_, ?_⟩
    · rw [List.append_nil]
      rfl
    · rw [List.append_nil]
      exact hlook
    · intro c hc
      simp only [List.nil_append, List.mem_singleton] at hc
      subst hc
      exact lookupStr_stateOf_lt hlook
    · intro B w acc hw hA
      subst hA
      simp only [List.nil_append, decodeLoop, get_entry_sim hw hs hlook]
      simp
  | cons a rest ih =>
    intro A s cs hbytes hs hlook
    have ha : a < 256 := hbytes a (by simp)
    have hrest : ∀ b ∈ rest, b < 256 := fun b hb => hbytes b (by simp [hb])
    cases hmem : lookupStr (stateOf A).dictionary (s ++ [a]) with
    | some c2 =>
      obtain ⟨codes, A2, s2, cs2, henc, hs2, hlook2, hbound, hdec⟩ :=
        ih A (s ++ [a]) c2 hrest (by simp) hmem
      refine ⟨codes, A2, s2, cs2, ?_, hs2, hlook2, hbound, ?_⟩
      · simp only [encodeLoop, hmem, Option.isSome_some, if_pos]
        exact henc
      · intro B w acc hw hA
        have hA2 : A = B ++ [w ++ (s ++ [a]).take 1] := by
          rw [take_one_append hs]
          exact hA
        have := hdec B w acc hw hA2
        rw [this]
        simp
    | none =>
      obtain ⟨codes, A2, s2, cs2, henc, hs2, hlook2, hbound, hdec⟩ :=
        ih (A ++ [s ++ [a]]) [a] a hrest (by simp)
          (lookupStr_stateOf_singleton _ ha)
      refine ⟨cs :: codes, [s ++ [a]] ++ A2, s2, cs2, ?_, hs2, ?_, ?_, ?_⟩
      · simp only [encodeLoop, hmem, Option.isSome_none, Bool.false_eq_true, if_false, hlook]
        rw [stateOf_concat] at henc
        rw [henc]
        rw [← List.append_assoc]
      · rw [← List.append_assoc]
        exact hlook2
      · intro c hc
        simp only [List.cons_append, List.mem_cons] at hc
        rcases hc with rfl | hc
        · exact lookupStr_stateOf_lt hlook
        · exact hbound c hc
      · intro B w acc hw hA
        subst hA
        simp only [List.cons_append, decodeLoop, get_entry_sim hw hs hlook]
        rw [← stateOf_concat]
        have hfin := hdec (B ++ [w ++ s.take 1]) s (acc ++ s) hs (by simp)
        simp only [List.append_eq]
        rw [hfin]
        simp

/-- Serialization round-trip: `_from_bytes` inverts `_to_bytes`
(with no side condition — each code contributes exactly two bytes). -/
theorem from_bytes_flatten (codes : List Nat) :
    from_bytes ((codes.map toBytesBE2).flatten) = codes := by
  induction codes with
  | nil => rfl
  | cons c cs ih =>
    simp only [List.map_cons, List.flatten_cons, toBytesBE2, List.cons_append,
      List.nil_append]
    rw [from_bytes, ih]
    have hdm : c / 256 * 256 + c % 256 = c := by omega
    rw [hdm]

/-- The LZW code-level round trip on non-empty byte inputs, together with the
bound that every emitted code fits the 2-byte big-endian serialization. -/
theorem lzw_codes_roundtrip (x : List Nat) (hx : x ≠ []) (hbytes : ∀ b ∈ x, b < 256) :
    ∃ codes, lzwEncodeCodes x = some codes ∧ (∀ c ∈ codes, c < 65536) ∧
      decodeCodes codes = some x := by
  cases x with
  | nil => exact absurd rfl hx
  | cons a rest =>
    have ha : a < 256 := hbytes a (by simp)
    have hsing : lookupStr reset_dictionary.dictionary [a] = some a :=
      lookupStr_stateOf_singleton [] ha
    have hrevA : lookupCode reset_dictionary.reverse_dictionary a = some [a] := by
      have := lookupCode_stateOf [] a
      rw [if_pos ha] at this
      exact this
    have hstep1 : encodeLoop reset_dictionary [] (a :: rest) =
        encodeLoop reset_dictionary [a] rest := by
      simp only [encodeLoop, List.nil_append, hsing, Option.isSome_some, if_pos]
    cases rest with
    | nil =>
      refine ⟨[a], ?_, ?_, ?_⟩
      · unfold lzwEncodeCodes
        rw [hstep1]
        simp only [encodeLoop]
        rw [if_neg (by simp : ¬ ([a] : List Nat) = []), hsing]
        simp
      · intro c hc
        simp only [List.mem_singleton] at hc
        omega
      · simp only [decodeCodes, hrevA, decodeLoop]
    | cons b rest2 =>
      have hb : b < 256 := hbytes b (by simp)
      have hrest2 : ∀ c ∈ rest2, c < 256 := fun c hc => hbytes c (by simp [hc])
      have hnotin : lookupStr reset_dictionary.dictionary [a, b] = none := by
        cases hl : lookupStr reset_dictionary.dictionary [a, b] with
        | none => rfl
        | some c =>
          have hinv := lookupStr_initDict_inv (n := 256)
            (by simpa [reset_dictionary] using hl)
          simp at hinv
      obtain ⟨codes, A2, s2, cs2, henc, hs2, hlook2, hbound, hdec⟩ :=
        encodeLoop_sim rest2 [[a, b]] [b] b hrest2 (by simp)
          (lookupStr_stateOf_singleton _ hb)
      refine ⟨a :: (codes ++ [cs2]), ?_, ?_, ?_⟩
      · unfold lzwEncodeCodes
        rw [hstep1]
        simp only [encodeLoop, List.singleton_append, hnotin, Option.isSome_none,
          Bool.false_eq_true, if_false, hsing]
        have hadd : add_to_dictionary reset_dictionary [a, b] [a, b] =
            stateOf [[a, b]] := rfl
        rw [hadd, henc]
        show (if s2 = [] then some (a :: codes)
          else match lookupStr (stateOf ([[a, b]] ++ A2)).dictionary s2 with
            | none => none
            | some c => some ((a :: codes) ++ [c])) = some (a :: (codes ++ [cs2]))
        rw [if_neg hs2, hlook2]
        simp
      · intro c hc
        simp only [List.mem_cons] at hc
        rcases hc with rfl | hc
        · omega
        · exact hbound c (by simpa using hc)
      · simp only [decodeCodes, hrevA]
        show decodeLoop (stateOf []) [a] [a] (codes ++ [cs2]) = some (a :: b :: rest2)
        rw [hdec [] [a] [a] (by simp) (by simp)]
        simp

/-- The byte-level LZW round trip: decoding the encoding of any non-empty
byte sequence returns it. -/
theorem lzw_roundtrip (x : List Nat) (hx : x ≠ []) (hbytes : ∀ b ∈ x, b < 256) :
    (lzwEncode x).bind lzwDecode = some x := by
  obtain ⟨codes, henc, hbound, hdec⟩ := lzw_codes_roundtrip x hx hbytes
  unfold lzwEncode lzwDecode
  rw [henc]
  show decodeCodes (from_bytes ((codes.map toBytesBE2).flatten)) = some x
  rw [from_bytes_flatten]
  exact hdec

/-! ## Theorems: decode-failure characterization and code bounds -/

theorem get_entry_eq_none_iff (B : List (List Nat)) (c : Nat) (w : List Nat) :
    (get_entry (stateOf B) c w = none ↔ (stateOf B).next_code < c) := by
  unfold get_entry
  rw [lookupCode_stateOf, stateOf_next_code]
  have hmin : (B.take 65280).length = min B.length 65280 := by
    rw [List.length_take]
    exact Nat.min_comm _ _
  by_cases hc : c < 256
  · rw [if_pos hc]
    simp only [reduceCtorEq, false_iff]
    omega
  · rw [if_neg hc]
    cases hg : (B.take 65280).get? (c - 256) with
    | some e =>
      have hlt : ¬ ((B.take 65280).length ≤ c - 256) := by
        intro hle
        rw [List.get?_eq_none.mpr hle] at hg
        cases hg
      simp only [reduceCtorEq, false_iff]
      omega
    | none =>
      have hge : (B.take 65280).length ≤ c - 256 := List.get?_eq_none.mp hg
      by_cases heq : c = 256 + min B.length 65280
      · rw [if_pos heq]
        simp only [reduceCtorEq, false_iff]
        omega
      · rw [if_neg heq]
        simp only [true_iff]
        omega

theorem stateOf_concat_next_code (B : List (List Nat)) (k : List Nat) :
    (stateOf (B ++ [k])).next_code =
      if (stateOf B).next_code < 65536 then (stateOf B).next_code + 1
      else (stateOf B).next_code := by
  rw [stateOf_concat]
  unfold add_to_dictionary
  split <;> rfl

/-- The decode loop from a canonical state fails exactly when the code
stream violates the spec-side validity predicate started at the state's
next free code. -/
theorem decodeLoop_eq_none_iff (codes : List Nat) :
    ∀ (B : List (List Nat)) (w acc : List Nat),
      (decodeLoop (stateOf B) w acc codes = none ↔
        specValidCodes (stateOf B).next_code codes = false) := by
  induction codes with
  | nil =>
    intro B w acc
    simp [decodeLoop, specValidCodes]
  | cons c rest ih =>
    intro B w acc
    cases hg : get_entry (stateOf B) c w with
    | none =>
      have hgt := (get_entry_eq_none_iff B c w).mp hg
      have hdec : decide (c ≤ (stateOf B).next_code) = false := by
        simp only [decide_eq_false_iff_not]
        omega
      simp [decodeLoop, hg, specValidCodes, hdec]
    | some entry =>
      have hle : c ≤ (stateOf B).next_code := by
        by_contra hlt
        rw [(get_entry_eq_none_iff B c w).mpr (by omega)] at hg
        cases hg
      have hstep : decodeLoop (stateOf B) w acc (c :: rest) =
          decodeLoop (stateOf (B ++ [w ++ entry.take 1])) entry (acc ++ entry) rest := by
        simp only [decodeLoop, hg]
        rw [stateOf_concat]
      rw [hstep, ih (B ++ [w ++ entry.take 1]) entry (acc ++ entry)]
      simp only [specValidCodes, decide_eq_true hle, Bool.true_and]
      rw [stateOf_concat_next_code]

/-- `LZWDecompressor.decode` (at code level) fails exactly on: zero codes, a
first code outside the initial 256-entry table, or a later code that is
neither in the table nor the next code about to be assigned. -/
theorem decodeCodes_eq_none_iff (codes : List Nat) :
    (decodeCodes codes = none ↔
      codes = [] ∨ ∃ c0 rest, codes = c0 :: rest ∧
        (256 ≤ c0 ∨ specValidCodes 256 rest = false)) := by
  cases codes with
  | nil => simp [decodeCodes]
  | cons c0 rest =>
    have hrev := lookupCode_stateOf [] c0
    by_cases hc : c0 < 256
    · rw [if_pos hc] at hrev
      have h0 : decodeCodes (c0 :: rest) = decodeLoop reset_dictionary [c0] [c0] rest := by
        simp only [decodeCodes,
          show lookupCode reset_dictionary.reverse_dictionary c0 = some [c0] from hrev]
      have hiff : decodeLoop reset_dictionary [c0] [c0] rest = none ↔
          specValidCodes 256 rest = false :=
        decodeLoop_eq_none_iff rest [] [c0] [c0]
      rw [h0, hiff]
      constructor
      · intro hval
        exact Or.inr ⟨c0, rest, rfl, Or.inr hval⟩
      · rintro (h | ⟨c1, rest1, heq, h1 | h1⟩)
        · cases h
        · cases heq
          omega
        · cases heq
          exact h1
    · rw [if_neg hc] at hrev
      have hrevNone : lookupCode reset_dictionary.reverse_dictionary c0 = none := by
        simpa using hrev
      have h0 : decodeCodes (c0 :: rest) = none := by
        simp only [decodeCodes, hrevNone]
      rw [h0]
      constructor
      · intro _
        exact Or.inr ⟨c0, rest, rfl, Or.inl (by omega)⟩
      · intro _
        rfl

/-- Every state the encode loop reaches is canonical, and every code it emits
is below 65536 (no byte-range hypothesis needed). -/
theorem encodeLoop_codes_lt (input : List Nat) :
    ∀ (A : List (List Nat)) (s : List Nat) codes st2 s2,
      encodeLoop (stateOf A) s input = some (codes, st2, s2) →
      (∀ c ∈ codes, c < 65536) ∧ ∃ A2, st2 = stateOf (A ++ A2) := by
  induction input with
  | nil =>
    intro A s codes st2 s2 h
    simp only [encodeLoop, Option.some.injEq] at h
    obtain ⟨rfl, rfl, rfl⟩ := h
    exact ⟨by simp, ⟨[], by simp⟩⟩
  | cons a rest ih =>
    intro A s codes st2 s2 h
    simp only [encodeLoop] at h
    split at h
    · exact ih A (s ++ [a]) codes st2 s2 h
    · cases hl : lookupStr (stateOf A).dictionary s with
      | none =>
        rw [hl] at h
        simp at h
      | some cs =>
        rw [hl] at h
        cases he : encodeLoop (add_to_dictionary (stateOf A) (s ++ [a]) (s ++ [a]))
            [a] rest with
        | none =>
          rw [he] at h
          simp at h
        | some t =>
          obtain ⟨codes1, st1, s1⟩ := t
          rw [he] at h
          simp only [Option.some.injEq, Prod.mk.injEq] at h
          obtain ⟨h1, h2, h3⟩ := h
          subst h1
          subst h2
          subst h3
          have he2 : encodeLoop (stateOf (A ++ [s ++ [a]])) [a] rest =
              some (codes1, st1, s1) := by
            rw [stateOf_concat]
            exact he
          obtain ⟨hb, A2, hst⟩ := ih (A ++ [s ++ [a]]) [a] codes1 st1 s1 he2
          refine ⟨?_, ⟨[s ++ [a]] ++ A2, by rw [List.append_assoc] at hst; exact hst⟩⟩
          intro c hc
          simp only [List.mem_cons] at hc
          rcases hc with rfl | hc
          · exact lookupStr_stateOf_lt hl
          · exact hb c hc

/-- Every code `LZWCompressor.encode` serializes is below 65536, so each
fits `to_bytes(2, 'big')`. -/
theorem lzwEncodeCodes_lt {x codes : List Nat} (h : lzwEncodeCodes x = some codes) :
    ∀ c ∈ codes, c < 65536 := by
  unfold lzwEncodeCodes at h
  cases he : encodeLoop reset_dictionary [] x with
  | none =>
    rw [he] at h
    simp at h
  | some t =>
    obtain ⟨codes1, st, string⟩ := t
    rw [he] at h
    have h2 : (if string = [] then some codes1
        else match lookupStr st.dictionary string with
          | none => none
          | some c => some (codes1 ++ [c])) = some codes := h
    have he2 : encodeLoop (stateOf []) [] x = some (codes1, st, string) := he
    obtain ⟨hb, A2, hst⟩ := encodeLoop_codes_lt x [] [] codes1 st string he2
    split at h2
    · cases h2
      exact hb
    · cases hl : lookupStr st.dictionary string with
      | none =>
        rw [hl] at h2
        simp at h2
      | some c1 =>
        rw [hl] at h2
        simp only [Option.some.injEq] at h2
        subst h2
        intro c hc
        simp only [List.mem_append, List.mem_singleton] at hc
        rcases hc with hc | rfl
        · exact hb c hc
        · rw [hst] at hl
          exact lookupStr_stateOf_lt hl

/-! ## Theorems: odd-length decode inputs -/

theorem from_bytes_append_single :
    ∀ (xs : List Nat) (b : Nat), xs.length % 2 = 0 →
      from_bytes (xs ++ [b]) = from_bytes xs ++ [b]
  | [], b, _ => rfl
  | [x], b, h => by simp at h
  | x1 :: x2 :: rest, b, h => by
    simp only [List.cons_append, from_bytes, List.append_eq]
    rw [from_bytes_append_single rest b (by simp at h; omega)]

theorem from_bytes_append_pair :
    ∀ (xs : List Nat) (x y : Nat), xs.length % 2 = 0 →
      from_bytes (xs ++ [x, y]) = from_bytes xs ++ [x * 256 + y]
  | [], x, y, _ => rfl
  | [z], x, y, h => by simp at h
  | x1 :: x2 :: rest, x, y, h => by
    simp only [List.cons_append, from_bytes, List.append_eq]
    rw [from_bytes_append_pair rest x y (by simp at h; omega)]

/-! ## Theorems: container framing and detract -/

theorem take_append_exact {α : Type} {l1 l2 : List α} {n : Nat} (h : l1.length = n) :
    (l1 ++ l2).take n = l1 := by
  subst h
  simp

theorem drop_append_exact {α : Type} {l1 l2 : List α} {n : Nat} (h : l1.length = n) :
    (l1 ++ l2).drop n = l2 := by
  subst h
  simp

theorem u32le_le4 {n : Nat} (h : n < 2 ^ 32) :
    u32le (n % 256) (n / 256 % 256) (n / 256 ^ 2 % 256) (n / 256 ^ 3 % 256) = n := by
  unfold u32le
  omega

/-- Reading back the archive header written by `_write_rch_header`. -/
theorem read_rch_header_write (blk : List Nat) :
    read_rch_header (write_rch_header ++ blk) = Except.ok blk := by
  have hshape : write_rch_header ++ blk =
      RCH_MAGIC ++ ((le4 1 ++ le4 0 ++ List.replicate 16 0) ++ blk) := by
    simp [write_rch_header, List.append_assoc]
  have hmid : (le4 1 ++ le4 0 ++ List.replicate 16 0).length = 24 := by simp [le4]
  rw [hshape]
  unfold read_rch_header
  rw [take_append_exact (show RCH_MAGIC.length = 4 from rfl)]
  rw [if_neg (by simp)]
  rw [drop_append_exact (show RCH_MAGIC.length = 4 from rfl), drop_append_exact hmid]

/-- Parsing a raw block header laid out by `write_block_to_file`, when the
name field decodes as UTF-8. -/
theorem read_file_block_header_raw (name40 : List Nat) (h40 : name40.length = 40)
    (fname : List Nat) (hname : utf8Decode (splitNull name40) = some fname)
    (v r L c a : Nat) (_hv : v < 2 ^ 32) (hr : r < 2 ^ 32) (hL : L < 2 ^ 32)
    (hc : c < 2 ^ 32) (ha : a < 2 ^ 32) (tail : List Nat) :
    read_file_block_header
        (BLOCK_MAGIC ++ name40 ++ le4 v ++ le4 r ++ le4 L ++ le4 c ++ le4 a ++ tail) =
      Except.ok (fname, L, c, a, r, tail) := by
  have hshape0 : BLOCK_MAGIC ++ name40 ++ le4 v ++ le4 r ++ le4 L ++ le4 c ++ le4 a ++ tail =
      BLOCK_MAGIC ++ (name40 ++
        ((le4 v ++ (le4 r ++ (le4 L ++ (le4 c ++ le4 a)))) ++ tail)) := by
    simp [List.append_assoc]
  rw [hshape0]
  have hlen20 : (le4 v ++ (le4 r ++ (le4 L ++ (le4 c ++ le4 a)))).length = 20 := by
    simp [le4]
  simp only [read_file_block_header,
    take_append_exact (show BLOCK_MAGIC.length = 2 from rfl),
    drop_append_exact (show BLOCK_MAGIC.length = 2 from rfl),
    take_append_exact h40, drop_append_exact h40, hname,
    take_append_exact hlen20, drop_append_exact hlen20,
    hlen20, ne_eq, not_true_eq_false, if_false]
  simp only [le4, List.cons_append, List.nil_append, List.getD_cons_zero,
    List.getD_cons_succ]
  rw [u32le_le4 hL, u32le_le4 hc, u32le_le4 ha, u32le_le4 hr]

/-- A block header whose 40-byte name field does not decode as UTF-8
raises `UnicodeDecodeError` (a `ValueError`), whatever follows. -/
theorem read_file_block_header_badname (name40 : List Nat) (h40 : name40.length = 40)
    (hname : utf8Decode (splitNull name40) = none) (tail : List Nat) :
    read_file_block_header (BLOCK_MAGIC ++ name40 ++ tail) =
      Except.error PyErr.valueError := by
  have hshape0 : BLOCK_MAGIC ++ name40 ++ tail = BLOCK_MAGIC ++ (name40 ++ tail) := by
    simp [List.append_assoc]
  rw [hshape0]
  simp only [read_file_block_header,
    take_append_exact (show BLOCK_MAGIC.length = 2 from rfl),
    drop_append_exact (show BLOCK_MAGIC.length = 2 from rfl),
    take_append_exact h40, drop_append_exact h40, hname,
    ne_eq, not_true_eq_false, if_false]

/-- Parsing the head block of a block stream. -/
theorem read_file_block_header_block (B : Block) (hwf : wfBlock B) (rest : List Nat) :
    read_file_block_header (blockBytes B ++ rest) =
      Except.ok (parsedName B, B.payload.length, B.crcField, B.alg, B.reserved,
        B.payload ++ rest) := by
  obtain ⟨h40, hdec, hp, hv, hr, hc, ha⟩ := hwf
  obtain ⟨n, hn⟩ := Option.isSome_iff_exists.mp hdec
  have hpn : parsedName B = n := by simp [parsedName, hn]
  have hshape : blockBytes B ++ rest =
      BLOCK_MAGIC ++ B.nameField ++ le4 B.version ++ le4 B.reserved ++
        le4 B.payload.length ++ le4 B.crcField ++ le4 B.alg ++ (B.payload ++ rest) := by
    simp [blockBytes, List.append_assoc]
  rw [hshape, hpn]
  exact read_file_block_header_raw B.nameField h40 n hn _ _ _ _ _ hv hr hp hc ha _

theorem blockBytes_length (B : Block) (h40 : B.nameField.length = 40) :
    (blockBytes B).length = 62 + B.payload.length := by
  simp [blockBytes, le4, BLOCK_MAGIC, h40]
  omega

theorem length_joinBlocks_ge (bs : List Block) : bs.length ≤ (joinBlocks bs).length := by
  induction bs with
  | nil => simp [joinBlocks]
  | cons B bs ih =>
    simp only [joinBlocks, List.map_cons, List.flatten_cons, List.length_append,
      List.length_cons]
    have hB : 1 ≤ (blockBytes B).length := by
      simp [blockBytes, BLOCK_MAGIC]
    simp only [joinBlocks] at ih
    omega

/-- The detract scan over a well-formed block stream: reports whether any
block's name matched, and re-emits exactly the non-matching blocks' bytes,
in order. -/
theorem detractLoop_joinBlocks (target : List Nat) (bs : List Block)
    (hwf : ∀ B ∈ bs, wfBlock B) :
    ∀ fuel, bs.length < fuel →
      detractLoop target fuel (joinBlocks bs) =
        Except.ok (bs.any fun B => decide (parsedName B = target),
          joinBlocks (bs.filter fun B => decide (parsedName B ≠ target))) := by
  induction bs with
  | nil =>
    intro fuel hfuel
    cases fuel with
    | zero => omega
    | succ f =>
      simp [detractLoop, joinBlocks, read_file_block_header, BLOCK_MAGIC]
  | cons B bs ih =>
    intro fuel hfuel
    cases fuel with
    | zero => omega
    | succ f =>
      have hwfB : wfBlock B := hwf B (by simp)
      have hwfRest : ∀ C ∈ bs, wfBlock C := fun C hC => hwf C (by simp [hC])
      have hjoin : joinBlocks (B :: bs) = blockBytes B ++ joinBlocks bs := by
        simp [joinBlocks]
      rw [hjoin]
      have hdrop : (B.payload ++ joinBlocks bs).drop B.payload.length = joinBlocks bs :=
        drop_append_exact rfl
      have htake : (blockBytes B ++ joinBlocks bs).take (2 + 40 + 4 * 5 + B.payload.length)
          = blockBytes B :=
        take_append_exact (by rw [blockBytes_length B hwfB.1])
      simp only [detractLoop, read_file_block_header_block B hwfB (joinBlocks bs),
        hdrop, ih hwfRest f (by simp at hfuel; omega), htake]
      by_cases hname : parsedName B = target
      · simp [hname, joinBlocks]
      · simp [hname, joinBlocks]

/-- `detract_file` on a well-formed archive: never an error, reports presence
of the name, and the resulting archive bytes are the header plus exactly the
surviving blocks. -/
theorem detract_file_wf (hdr : List Nat) (h28 : hdr.length = 28) (bs : List Block)
    (hwf : ∀ B ∈ bs, wfBlock B) (target : List Nat) :
    detract_file (hdr ++ joinBlocks bs) target =
      Except.ok (bs.any fun B => decide (parsedName B = target),
        hdr ++ joinBlocks (bs.filter fun B => decide (parsedName B ≠ target))) := by
  have hloop := detractLoop_joinBlocks target bs hwf ((joinBlocks bs).length + 1)
    (by have := length_joinBlocks_ge bs; omega)
  simp only [detract_file, take_append_exact h28, drop_append_exact h28, hloop]
  by_cases hany : (bs.any fun B => decide (parsedName B = target)) = true
  · rw [hany]
    simp
  · have hany2 : (bs.any fun B => decide (parsedName B = target)) = false := by
      simp only [Bool.not_eq_true] at hany
      exact hany
    rw [hany2]
    have hfilter : (bs.filter fun B => decide (parsedName B ≠ target)) = bs := by
      apply List.filter_eq_self.mpr
      intro B hB
      simp only [List.any_eq_false] at hany2
      simpa using hany2 B hB
    rw [hfilter]
    simp

theorem any_filter_ne {bs : List Block} {n m : List Nat} (hnm : m ≠ n) :
    ((bs.filter fun B => decide (parsedName B ≠ n)).any fun B => decide (parsedName B = m))
      = bs.any fun B => decide (parsedName B = m) := by
  rcases Bool.eq_false_or_eq_true (bs.any fun B => decide (parsedName B = m)) with hb | hb <;>
    rw [hb]
  · rw [List.any_eq_true] at hb ⊢
    obtain ⟨B, hB, hBm⟩ := hb
    refine ⟨B, List.mem_filter.mpr ⟨hB, ?_⟩, hBm⟩
    have hm : parsedName B = m := of_decide_eq_true hBm
    simp [hm, hnm]
  · rw [List.any_eq_false] at hb ⊢
    intro B hB
    exact hb B (List.mem_of_mem_filter hB)

theorem filter_filter_notin (bs : List Block) (n : List Nat) (ns : List (List Nat)) :
    ((bs.filter fun B => decide (parsedName B ≠ n)).filter
        fun B => decide (parsedName B ∉ ns))
      = bs.filter fun B => decide (parsedName B ∉ n :: ns) := by
  rw [List.filter_filter]
  apply List.filter_congr
  intro B hB
  by_cases h1 : parsedName B = n <;> by_cases h3 : parsedName B ∈ ns <;> simp [h1, h3]

/-- `RCH.detract_files` on a well-formed archive with distinct requested
names: never an error; the removed set is exactly the requested names some
block bears, the not-removed set exactly the rest, and the final archive is
the header plus exactly the blocks whose names were not requested. -/
theorem detract_files_wf (hdr : List Nat) (h28 : hdr.length = 28) :
    ∀ (names : List (List Nat)) (bs : List Block), (∀ B ∈ bs, wfBlock B) →
      names.Nodup →
      detract_files (hdr ++ joinBlocks bs) names =
        Except.ok (names.filter fun n => bs.any fun B => decide (parsedName B = n),
          names.filter (fun n => ! bs.any fun B => decide (parsedName B = n)),
          hdr ++ joinBlocks (bs.filter fun B => decide (parsedName B ∉ names))) := by
  intro names
  induction names with
  | nil =>
    intro bs hwf _
    have hfs : (bs.filter fun B => decide (parsedName B ∉ ([] : List (List Nat)))) = bs := by
      apply List.filter_eq_self.mpr
      intro B hB
      simp
    simp [detract_files, hfs]
  | cons n ns ih =>
    intro bs hwf hnodup
    have hwf1 : ∀ B ∈ bs.filter fun B => decide (parsedName B ≠ n), wfBlock B := by
      intro B hB
      exact hwf B (List.mem_of_mem_filter hB)
    have hrec := ih (bs.filter fun B => decide (parsedName B ≠ n)) hwf1
      (List.Nodup.of_cons hnodup)
    have hnmem : n ∉ ns := by
      have := List.nodup_cons.mp hnodup
      exact this.1
    have hfiltR : (ns.filter fun m =>
          (bs.filter fun B => decide (parsedName B ≠ n)).any
            fun B => decide (parsedName B = m))
        = ns.filter fun m => bs.any fun B => decide (parsedName B = m) := by
      apply List.filter_congr
      intro m hm
      exact any_filter_ne (fun he => hnmem (by rw [← he]; exact hm))
    have hfiltN : (ns.filter fun m =>
          ! (bs.filter fun B => decide (parsedName B ≠ n)).any
            fun B => decide (parsedName B = m))
        = ns.filter fun m => ! bs.any fun B => decide (parsedName B = m) := by
      apply List.filter_congr
      intro m hm
      rw [any_filter_ne (fun he => hnmem (by rw [← he]; exact hm))]
    simp only [detract_files, detract_file_wf hdr h28 bs hwf n, hrec, hfiltR, hfiltN,
      filter_filter_notin]
    by_cases hany : (bs.any fun B => decide (parsedName B = n)) = true
    · rw [hany]
      simp [List.filter_cons, hany]
    · have hany2 : (bs.any fun B => decide (parsedName B = n)) = false := by
        simp only [Bool.not_eq_true] at hany
        exact hany
      rw [hany2]
      simp [List.filter_cons, hany2]

/-! ## Theorems: XOR255 and filename sanitization -/

theorem xor255_xor255 (x : List Nat) : xor255 (xor255 x) = x := by
  unfold xor255
  rw [List.map_map]
  have hmap : ((fun b => b ^^^ 255) ∘ fun b => b ^^^ 255) = id := by
    funext b
    simp [Function.comp, Nat.xor_assoc]
  rw [hmap, List.map_id]

theorem xor255_lt (x : List Nat) (hx : ∀ b ∈ x, b < 256) :
    ∀ b ∈ xor255 x, b < 256 := by
  intro b hb
  unfold xor255 at hb
  rw [List.mem_map] at hb
  obtain ⟨a, ha, rfl⟩ := hb
  have h1 : a < 2 ^ 8 := hx a ha
  have h2 : 255 < 2 ^ 8 := by omega
  exact Nat.xor_lt_two_pow h1 h2

theorem xor255_ne_nil {x : List Nat} (hx : x ≠ []) : xor255 x ≠ [] := by
  cases x with
  | nil => exact absurd rfl hx
  | cons a rest => simp [xor255]

theorem rfindIdx_none_not_mem {c : Nat} {p : List Nat} (h : rfindIdx c p = none) :
    c ∉ p := by
  induction p with
  | nil => simp
  | cons a rest ih =>
    cases hr : rfindIdx c rest with
    | some i =>
      have heq : rfindIdx c (a :: rest) = some (i + 1) := by simp [rfindIdx, hr]
      rw [heq] at h
      cases h
    | none =>
      have heq : rfindIdx c (a :: rest) = if a = c then some 0 else none := by
        simp [rfindIdx, hr]
      rw [heq] at h
      by_cases ha : a = c
      · rw [if_pos ha] at h
        cases h
      · simp only [List.mem_cons, not_or]
        exact ⟨fun he => ha he.symm, ih hr⟩

theorem rfindIdx_some_drop {c : Nat} :
    ∀ {p : List Nat} {i : Nat}, rfindIdx c p = some i →
      ∀ x ∈ p.drop (i + 1), x ≠ c := by
  intro p
  induction p with
  | nil => intro i h; cases h
  | cons a rest ih =>
    intro i h
    cases hr : rfindIdx c rest with
    | some j =>
      have heq : rfindIdx c (a :: rest) = some (j + 1) := by simp [rfindIdx, hr]
      rw [heq] at h
      cases h
      intro x hx
      rw [List.drop_succ_cons] at hx
      exact ih hr x hx
    | none =>
      have heq : rfindIdx c (a :: rest) = if a = c then some 0 else none := by
        simp [rfindIdx, hr]
      rw [heq] at h
      by_cases ha : a = c
      · rw [if_pos ha] at h
        cases h
        intro x hx
        rw [List.drop_succ_cons, List.drop_zero] at hx
        intro he
        exact rfindIdx_none_not_mem hr (he ▸ hx)
      · rw [if_neg ha] at h
        cases h

theorem pathBasename_not_mem (p : List Nat) : ∀ x ∈ pathBasename p, x ≠ 47 := by
  unfold pathBasename
  cases h : rfindIdx 47 p with
  | none =>
    intro x hx he
    exact rfindIdx_none_not_mem h (he ▸ hx)
  | some i => exact rfindIdx_some_drop h

theorem splitext_eq_of_none {p : List Nat} (hr : rfindIdx 46 p = none) :
    splitext p = (p, []) := by
  simp [splitext, hr]

theorem splitext_eq_of_some {p : List Nat} {i : Nat} (hr : rfindIdx 46 p = some i) :
    splitext p =
      if (p.take i).any (fun ch => ch ≠ 46) then (p.take i, p.drop i) else (p, []) := by
  simp [splitext, hr]

theorem splitext_append (p : List Nat) : (splitext p).1 ++ (splitext p).2 = p := by
  cases hr : rfindIdx 46 p with
  | none =>
    rw [splitext_eq_of_none hr]
    simp
  | some i =>
    rw [splitext_eq_of_some hr]
    split
    · simp
    · simp

theorem mem_splitext_fst {p : List Nat} {x : Nat} (h : x ∈ (splitext p).1) : x ∈ p := by
  cases hr : rfindIdx 46 p with
  | none =>
    rw [splitext_eq_of_none hr] at h
    exact h
  | some i =>
    rw [splitext_eq_of_some hr] at h
    split at h
    · exact List.mem_of_mem_take (by simpa using h)
    · simpa using h

theorem mem_splitext_snd {p : List Nat} {x : Nat} (h : x ∈ (splitext p).2) : x ∈ p := by
  cases hr : rfindIdx 46 p with
  | none =>
    rw [splitext_eq_of_none hr] at h
    simp at h
  | some i =>
    rw [splitext_eq_of_some hr] at h
    split at h
    · exact List.mem_of_mem_drop (by simpa using h)
    · simp at h

theorem mem_pySliceTo {s : List Nat} {n : Int} {x : Nat} (h : x ∈ pySliceTo s n) :
    x ∈ s := by
  unfold pySliceTo at h
  split at h <;> exact List.mem_of_mem_take h

theorem sanitize_filename_eq (name : List Nat) :
    sanitize_filename name =
      if 255 < (pathBasename name).length then
        pySliceTo (splitext (pathBasename name)).1
          (255 - ((splitext (pathBasename name)).2.length : Int)) ++
          (splitext (pathBasename name)).2
      else pathBasename name := rfl

/-- Sanitized names contain no directory separator. -/
theorem sanitize_filename_no_slash (name : List Nat) :
    ∀ x ∈ sanitize_filename name, x ≠ 47 := by
  rw [sanitize_filename_eq]
  split
  · intro x hx
    rw [List.mem_append] at hx
    rcases hx with hx | hx
    · exact pathBasename_not_mem name x (mem_splitext_fst (mem_pySliceTo hx))
    · exact pathBasename_not_mem name x (mem_splitext_snd hx)
  · exact pathBasename_not_mem name

/-- When the extension fits in 255 characters, sanitization caps the length
at 255.  (When the extension itself exceeds 255 characters it is preserved
wholesale and the bound fails — see the C8 counterexample.) -/
theorem sanitize_filename_length (name : List Nat)
    (hext : (splitext (pathBasename name)).2.length ≤ 255) :
    (sanitize_filename name).length ≤ 255 := by
  rw [sanitize_filename_eq]
  split
  · rw [List.length_append]
    have hval : (0 : Int) ≤ 255 - ((splitext (pathBasename name)).2.length : Int) := by
      omega
    unfold pySliceTo
    rw [if_pos hval]
    have hlen := List.length_take_le
      ((255 : Int) - ((splitext (pathBasename name)).2.length : Int)).toNat
      (splitext (pathBasename name)).1
    omega
  · omega

/-- Sanitization preserves the extension as a suffix. -/
theorem sanitize_filename_ext (name : List Nat) :
    ∃ r, sanitize_filename name = r ++ (splitext (pathBasename name)).2 := by
  rw [sanitize_filename_eq]
  split
  · exact ⟨_, rfl⟩
  · exact ⟨(splitext (pathBasename name)).1, (splitext_append _).symm⟩

/-! ## Claims -/

/-- **C4 (amended).**  Reading a block payload consumes
`min(length, remaining)` bytes, not exactly `length`: unpacking an archive
whose single XOR255 block declares `L` payload bytes while the stream holds
only `t` with `t.length < L` silently yields the shorter `t`, the CRC check
over `t` fails, the block is recorded `Failed` with nothing written, and the
operation completes without any I/O error — provided the block's name field
decodes as UTF-8; a name field that does not decode raises
`UnicodeDecodeError` (a `ValueError`) at the header read itself, ending the
scan with no record at all (second conjunct). -/
theorem unpack_truncated (bz : BZ2) (force : Bool) (name40 : List Nat)
    (h40 : name40.length = 40) (fname : List Nat)
    (hname : utf8Decode (splitNull name40) = some fname)
    (L : Nat) (hL : L < 2 ^ 32) (crcv : Nat)
    (hcrc : crcv < 2 ^ 32) (t : List Nat) (ht : t.length < L)
    (hbad : crc32 t ≠ crcv) :
    unpack_rch bz force
        (write_rch_header ++
          (BLOCK_MAGIC ++ name40 ++ le4 1 ++ le4 0 ++ le4 L ++ le4 crcv ++ le4 1 ++ t))
        none =
      Except.ok ([create_result_entry (sanitize_filename fname) L crcv
        ENCODING_XOR255 false 0 "Failed"], [])
    ∧ ∀ bad40 : List Nat, bad40.length = 40 → utf8Decode (splitNull bad40) = none →
        unpack_rch bz force
            (write_rch_header ++
              (BLOCK_MAGIC ++ bad40 ++ le4 1 ++ le4 0 ++ le4 L ++ le4 crcv ++ le4 1 ++ t))
            none =
          Except.ok ([], []) := by
  constructor
  · have h32 : (1 : Nat) < 2 ^ 32 := by omega
    have h032 : (0 : Nat) < 2 ^ 32 := by omega
    set blk := BLOCK_MAGIC ++ name40 ++ le4 1 ++ le4 0 ++ le4 L ++ le4 crcv ++ le4 1 ++ t
      with hblk
    have hblklen : blk.length = 62 + t.length := by
      simp [hblk, le4, BLOCK_MAGIC, h40]
      omega
    have hparse : read_file_block_header blk =
        Except.ok (fname, L, crcv, 1, 0, t) :=
      read_file_block_header_raw name40 h40 fname hname 1 0 L crcv 1 h32 h032 hL hcrc h32 t
    have htk : t.take L = t := List.take_of_length_le (by omega)
    have hdp : t.drop L = [] := List.drop_eq_nil_of_le (by omega)
    have hproc : process_file_data bz t 1 crcv = none := by
      unfold process_file_data decode_data check_crc
      simp [ENCODING_BZIP2, ENCODING_XOR255_LZW, ENCODING_XOR255, hbad]
    have hsel : filenameSelected none fname = true := rfl
    have hstop : unpackLoop bz force none (61 + t.length + 1) ([] : List Nat) =
        Except.ok ([], []) := by
      simp [unpackLoop, read_file_block_header, BLOCK_MAGIC]
    unfold unpack_rch
    simp only [read_rch_header_write]
    rw [show blk.length + 1 = (62 + t.length) + 1 by omega]
    simp only [unpackLoop, hparse, htk, hdp, hsel, hproc,
      show (62 : Nat) + t.length = 61 + t.length + 1 by omega, hstop]
    simp [ENCODING_XOR255]
  · intro bad40 h40b hnone
    set blk := BLOCK_MAGIC ++ bad40 ++ le4 1 ++ le4 0 ++ le4 L ++ le4 crcv ++ le4 1 ++ t
      with hblk
    have hshape : blk = BLOCK_MAGIC ++ bad40 ++
        (le4 1 ++ (le4 0 ++ (le4 L ++ (le4 crcv ++ (le4 1 ++ t))))) := by
      simp [hblk, List.append_assoc]
    have hparse : read_file_block_header blk = Except.error PyErr.valueError := by
      rw [hshape]
      exact read_file_block_header_badname bad40 h40b hnone _
    unfold unpack_rch
    simp only [read_rch_header_write]
    simp only [unpackLoop, hparse]

/-- **C1, counterexample.**  The claim as stated fails on the code at the
empty input: with the dictionary codec (algorithm 0) the encoding of `[]` is
`[]`, and decoding it raises (`LZW decoding failed: no data to decode`)
instead of returning the empty payload. -/
theorem c1_empty_roundtrip_fails :
    (encode_file_data ⟨id, some⟩ ENCODING_XOR255_LZW []).bind
        (fun e => decode_data ⟨id, some⟩ e ENCODING_XOR255_LZW) = none
    ∧ encode_file_data ⟨id, some⟩ ENCODING_XOR255_LZW [] = some [] := by
  exact ⟨rfl, rfl⟩

/-- **C1 (amended).**  For every byte sequence `x`, decoding the encoding of
`x` yields `x` for algorithm 1 (invert), for algorithm 2 (strong, given the
round-trip contract of the external `bz2` library), and — for non-empty `x`
only — for algorithm 0 (invert+dictionary), covering in particular
single-byte inputs and inputs adding more than 65280 dictionary entries; on
the empty input algorithm 0's decode of the encoding fails (`CodecError`)
instead of round-tripping. -/
theorem c1_roundtrip_amended (bz : BZ2)
    (hbz : ∀ y, bz.decompress (bz.compress y) = some y)
    (x : List Nat) (hx : ∀ b ∈ x, b < 256) :
    ((encode_file_data bz ENCODING_XOR255 x).bind
        fun e => decode_data bz e ENCODING_XOR255) = some x
    ∧ ((encode_file_data bz ENCODING_BZIP2 x).bind
        fun e => decode_data bz e ENCODING_BZIP2) = some x
    ∧ (x ≠ [] → ((encode_file_data bz ENCODING_XOR255_LZW x).bind
        fun e => decode_data bz e ENCODING_XOR255_LZW) = some x)
    ∧ ((encode_file_data bz ENCODING_XOR255_LZW []).bind
        fun e => decode_data bz e ENCODING_XOR255_LZW) = none := by
  refine ⟨?_, ?_, ?_, rfl⟩
  · simp [encode_file_data, decode_data, ENCODING_XOR255, ENCODING_BZIP2,
      ENCODING_XOR255_LZW, xor255_xor255]
  · simp [encode_file_data, decode_data, ENCODING_BZIP2, hbz]
  · intro hne
    have hrt := lzw_roundtrip (xor255 x) (xor255_ne_nil hne) (xor255_lt x hx)
    simp only [encode_file_data, decode_data, ENCODING_XOR255_LZW, ENCODING_BZIP2,
      ENCODING_XOR255]
    norm_num
    cases he : lzwEncode (xor255 x) with
    | none =>
      rw [he] at hrt
      simp at hrt
    | some enc =>
      rw [he] at hrt
      simp only [Option.some_bind] at hrt
      simp [hrt, xor255_xor255]

/-- **C1, witness.**  The amended round trip at the concrete two-byte input
`[104, 105]` with the identity as the (irrelevant there) strong compressor. -/
theorem c1_roundtrip_amended_witness :
    ((encode_file_data ⟨id, some⟩ ENCODING_XOR255_LZW [104, 105]).bind
        fun e => decode_data ⟨id, some⟩ e ENCODING_XOR255_LZW) = some [104, 105] :=
  (c1_roundtrip_amended ⟨id, some⟩ (fun _ => rfl) [104, 105] (by decide)).2.2.1
    (by decide)

/-- **C2 (code bug).**  Unpacking, with `force = true`, an archive whose one
XOR255 block stores a wrong checksum: `check_crc` raises instead of
returning `False`, so the force branches of `unpack_rch` are dead code —
the block is recorded `Failed` with `crc_passed = false` and nothing is
written, where the claim (and the repository's own
`test_forceful_extraction_with_bad_crc`) expects the decoded bytes written
and status `Unpacked`. -/
theorem c2_force_flag_dead_code :
    unpack_rch ⟨id, some⟩ true
        (write_rch_header ++
          write_block_to_file 1 [102] [65, 66, 67] ((crc32 [65, 66, 67] + 1) % 2 ^ 32))
        none =
      Except.ok ([create_result_entry [102] 3 ((crc32 [65, 66, 67] + 1) % 2 ^ 32) 1
        false 0 "Failed"], []) := by
  rfl

/-- **C3.**  The checksum basis per algorithm: at pack time
(`_calculate_crc32`) BZIP2 hashes the raw payload and the other two hash
the encoded bytes; at unpack time (`_process_file_data`) and check time
(`_verify_crc`) BZIP2 checks the decoded bytes and the other two check the
stored bytes; and the checksum written at pack time verifies at check time
for every algorithm (given the `bz2` round-trip contract for BZIP2). -/
theorem c3_crc_basis (bz : BZ2) (raw enc data : List Nat) (stored : Nat) :
    calculate_crc32 ENCODING_BZIP2 raw enc = crc32 raw
    ∧ calculate_crc32 ENCODING_XOR255 raw enc = crc32 enc
    ∧ calculate_crc32 ENCODING_XOR255_LZW raw enc = crc32 enc
    ∧ (∀ out ok, process_file_data bz data ENCODING_BZIP2 stored = some (out, ok) →
        crc32 out = stored)
    ∧ (∀ alg, alg = ENCODING_XOR255_LZW ∨ alg = ENCODING_XOR255 →
        ∀ out ok, process_file_data bz data alg stored = some (out, ok) →
          crc32 data = stored)
    ∧ verify_crc bz data ENCODING_BZIP2 stored =
        (match bz.decompress data with
          | none => none
          | some d => check_crc d stored)
    ∧ (∀ alg, alg = ENCODING_XOR255_LZW ∨ alg = ENCODING_XOR255 →
        verify_crc bz data alg stored = check_crc data stored)
    ∧ ((∀ y, bz.decompress (bz.compress y) = some y) →
        ∀ alg, alg < 3 → ∀ e, encode_file_data bz alg raw = some e →
          verify_crc bz e alg (calculate_crc32 alg raw e) = some true) := by
  refine ⟨rfl, rfl, rfl, ?_, ?_, ?_, ?_, ?_⟩
  · intro out ok h
    unfold process_file_data at h
    cases hd : decode_data bz data ENCODING_BZIP2 with
    | none =>
      rw [hd] at h
      simp at h
    | some od =>
      rw [hd] at h
      have h2 : (match check_crc (if ENCODING_BZIP2 = ENCODING_BZIP2 then od else data)
            stored with
          | none => none
          | some crc_valid => some (od, crc_valid)) = some (out, ok) := h
      rw [if_pos rfl] at h2
      cases hc : check_crc od stored with
      | none =>
        rw [hc] at h2
        simp at h2
      | some cv =>
        rw [hc] at h2
        simp only [Option.some.injEq, Prod.mk.injEq] at h2
        unfold check_crc at hc
        split at hc
        · rename_i heq
          rw [← h2.1]
          exact heq
        · cases hc
  · intro alg halg out ok h
    have hne : ¬ alg = ENCODING_BZIP2 := by
      rcases halg with rfl | rfl <;> simp [ENCODING_BZIP2, ENCODING_XOR255_LZW,
        ENCODING_XOR255]
    unfold process_file_data at h
    cases hd : decode_data bz data alg with
    | none =>
      rw [hd] at h
      simp at h
    | some od =>
      rw [hd] at h
      have h2 : (match check_crc (if alg = ENCODING_BZIP2 then od else data)
            stored with
          | none => none
          | some crc_valid => some (od, crc_valid)) = some (out, ok) := h
      rw [if_neg hne] at h2
      cases hc : check_crc data stored with
      | none =>
        rw [hc] at h2
        simp at h2
      | some cv =>
        unfold check_crc at hc
        split at hc
        · rename_i heq
          exact heq
        · cases hc
  · rfl
  · intro alg halg
    rcases halg with rfl | rfl <;> rfl
  · intro hbz alg halg e he
    interval_cases alg
    · simp [verify_crc, calculate_crc32, check_crc, ENCODING_BZIP2,
        ENCODING_XOR255_LZW]
    · simp [verify_crc, calculate_crc32, check_crc, ENCODING_BZIP2,
        ENCODING_XOR255]
    · rw [show encode_file_data bz 2 raw = some (bz.compress raw) from rfl] at he
      cases he
      simp [verify_crc, decode_data, calculate_crc32, check_crc, ENCODING_BZIP2,
        hbz raw]

/-- **C3, witness.**  Pack-time checksum verifies at check time, at the
concrete payload `[1, 2]` under the XOR255 algorithm. -/
theorem c3_crc_basis_witness :
    verify_crc ⟨id, some⟩ (xor255 [1, 2]) ENCODING_XOR255
      (calculate_crc32 ENCODING_XOR255 [1, 2] (xor255 [1, 2])) = some true :=
  (c3_crc_basis ⟨id, some⟩ [1, 2] [] [] 0).2.2.2.2.2.2.2 (fun _ => rfl)
    ENCODING_XOR255 (by decide) (xor255 [1, 2]) rfl

/-- **C4, counterexample.**  A block declares 5 payload bytes while only 2
remain in the stream: the scan completes with an `Except.ok` result (the
block recorded `Failed`), so the short read raises no I/O error,
contradicting the claim as stated. -/
theorem c4_truncated_no_error :
    ([10, 20] : List Nat).length < 5
    ∧ unpack_rch ⟨id, some⟩ false
        (write_rch_header ++ (BLOCK_MAGIC ++ ljust [102] 40 0 ++ le4 1 ++ le4 0 ++
          le4 5 ++ le4 7 ++ le4 1 ++ [10, 20])) none =
      Except.ok ([create_result_entry [102] 5 7 1 false 0 "Failed"], []) :=
  ⟨by decide, by rfl⟩

/-- **C4, witness.**  The amended short-read behavior at a concrete
truncated archive (name `f`, decoding to itself). -/
theorem unpack_truncated_witness :
    unpack_rch ⟨id, some⟩ false
        (write_rch_header ++
          (BLOCK_MAGIC ++ ljust [102] 40 0 ++ le4 1 ++ le4 0 ++ le4 5 ++ le4 7 ++
            le4 1 ++ [10, 20]))
        none =
      Except.ok ([create_result_entry (sanitize_filename [102])
        5 7 ENCODING_XOR255 false 0 "Failed"], []) :=
  (unpack_truncated ⟨id, some⟩ false (ljust [102] 40 0) (by decide) [102] (by decide)
    5 (by decide) 7 (by decide) [10, 20] (by decide) (by decide)).1

/-- **C5, counterexample.**  `ljust` pads but never truncates, so a 45-byte
name yields a 45-byte name field, and the header of a block with a short
name is 62 bytes, not 70. -/
theorem c5_field_not_40 :
    (ljust (List.replicate 45 97) 40 0).length = 45
    ∧ (write_block_to_file 1 [97] [] 0).length = 62 := by
  decide

/-- **C5 (amended).**  The name field written by `write_block_to_file` is
exactly 40 bytes (NUL-padded) only for names of at most 40 bytes, making the
block header 62 bytes; a longer name is written unpadded and untruncated,
and the header grows with it. -/
theorem c5_name_field_amended (alg : Nat) (name enc : List Nat) (crcv : Nat) :
    (name.length ≤ 40 → (ljust name 40 0).length = 40
      ∧ (write_block_to_file alg name enc crcv).length = 62 + enc.length)
    ∧ (40 ≤ name.length → ljust name 40 0 = name
      ∧ (write_block_to_file alg name enc crcv).length = 22 + name.length + enc.length) := by
  constructor
  · intro hle
    constructor
    · simp [ljust]
      omega
    · simp [write_block_to_file, ljust, le4, BLOCK_MAGIC]
      omega
  · intro hge
    constructor
    · simp [ljust, Nat.sub_eq_zero_of_le hge]
    · simp [write_block_to_file, ljust, le4, BLOCK_MAGIC, Nat.sub_eq_zero_of_le hge]
      omega

/-- **C5, witness.**  The amended name-field behavior at a 1-byte and a
45-byte name. -/
theorem c5_name_field_witness :
    (ljust [97] 40 0).length = 40
    ∧ ljust (List.replicate 45 97) 40 0 = List.replicate 45 97 :=
  ⟨((c5_name_field_amended 1 [97] [] 0).1 (by decide)).1,
    ((c5_name_field_amended 1 (List.replicate 45 97) [] 0).2 (by decide)).1⟩

/-- **C6.**  `LZWDecompressor.decode` fails exactly on corrupt input: the
stream parses to zero codes, the first code is outside the initial 256-entry
table, or a later code is neither in the table (codes below the next free
code) nor equal to the next code about to be assigned — `specValidCodes`,
written from the spec's words, captures the latter. -/
theorem c6_decode_failure_iff (encoded_data : List Nat) :
    (lzwDecode encoded_data = none ↔
      (from_bytes encoded_data = [] ∨ ∃ c0 rest, from_bytes encoded_data = c0 :: rest ∧
        (256 ≤ c0 ∨ specValidCodes 256 rest = false))) := by
  unfold lzwDecode
  exact decodeCodes_eq_none_iff (from_bytes encoded_data)

/-- **C6, witness.**  A first code of 256 (bytes `[1, 0]`) is outside the
initial table and decode fails. -/
theorem c6_decode_failure_iff_witness : lzwDecode [1, 0] = none :=
  (c6_decode_failure_iff [1, 0]).mpr (Or.inr ⟨256, [], rfl, Or.inl (by decide)⟩)

/-- **C7, counterexample.**  The claim fails on the code at an archive
whose second block's name field starts with byte `0x80`, not valid UTF-8:
after detracting the present name `a` from the first block, the scan's next
header read raises `UnicodeDecodeError` (a `ValueError`, treated as end of
archive), so the rewritten archive silently drops the second block too —
the archive is not shrunk by exactly the removed name's block with all
other blocks re-emitted unmodified, as the claim requires. -/
theorem c7_undecodable_name_blocks_dropped :
    detract_file
        (write_rch_header ++
          joinBlocks [⟨ljust [97] 40 0, 1, 0, 5, 1, [1, 2]⟩,
            ⟨ljust [128] 40 0, 1, 0, 9, 1, [3]⟩]) [97] =
      Except.ok (true, write_rch_header)
    ∧ write_rch_header ≠
        write_rch_header ++ joinBlocks [⟨ljust [128] 40 0, 1, 0, 9, 1, [3]⟩] :=
  ⟨rfl, by decide⟩

/-- **C7 (amended).**  On archives all of whose blocks carry 40-byte name
fields whose pre-NUL bytes decode as UTF-8 (as every block written by the
pack path does) and `u32`-range header fields, with pairwise-distinct
requested names: `detract_files` never errors; it removes exactly the
requested names that some block bears (re-emitting all other blocks' bytes
unmodified, in order) and reports the absent names as not removed; and
`detract_file` of an absent name leaves the archive byte-identical. -/
theorem c7_detract_removal (hdr : List Nat) (h28 : hdr.length = 28)
    (bs : List Block) (hwf : ∀ B ∈ bs, wfBlock B) (names : List (List Nat))
    (hnodup : names.Nodup) :
    detract_files (hdr ++ joinBlocks bs) names =
      Except.ok (names.filter fun n => bs.any fun B => decide (parsedName B = n),
        names.filter (fun n => ! bs.any fun B => decide (parsedName B = n)),
        hdr ++ joinBlocks (bs.filter fun B => decide (parsedName B ∉ names)))
    ∧ ∀ n : List Nat, (¬ ∃ B ∈ bs, parsedName B = n) →
        detract_file (hdr ++ joinBlocks bs) n =
          Except.ok (false, hdr ++ joinBlocks bs) := by
  constructor
  · exact detract_files_wf hdr h28 names bs hwf hnodup
  · intro n hn
    have hany : (bs.any fun B => decide (parsedName B = n)) = false := by
      rw [List.any_eq_false]
      intro B hB
      simp only [decide_eq_true_eq]
      exact fun he => hn ⟨B, hB, he⟩
    rw [detract_file_wf hdr h28 bs hwf n, hany]
    have hfilter : (bs.filter fun B => decide (parsedName B ≠ n)) = bs := by
      apply List.filter_eq_self.mpr
      intro B hB
      simp only [decide_eq_true_eq]
      exact fun he => hn ⟨B, hB, he⟩
    rw [hfilter]

/-- **C7, witness.**  Detracting `"a"` (present) and `"c"` (absent) from a
one-block archive removes the block, reports `"c"` as not removed, and
leaves just the header. -/
theorem c7_detract_removal_witness :
    detract_files
        (write_rch_header ++ joinBlocks [⟨ljust [97] 40 0, 1, 0, 5, 1, [1, 2]⟩])
        [[97], [99]] =
      Except.ok ([[97]], [[99]], write_rch_header) := by
  have h := (c7_detract_removal write_rch_header rfl
    [⟨ljust [97] 40 0, 1, 0, 5, 1, [1, 2]⟩]
    (by
      intro B hB
      simp only [List.mem_singleton] at hB
      subst hB
      exact ⟨by decide, by decide, by norm_num, by norm_num, by norm_num, by norm_num,
        by norm_num⟩)
    [[97], [99]] (by decide)).1
  exact h.trans (by rfl)

/-- **C8, counterexample.**  A name of form `a.` followed by 255 `x`s (257
characters, extension 256 characters): sanitization preserves the whole
extension and returns 256 characters, violating the claimed 255 bound. -/
theorem c8_long_extension :
    ¬ ((sanitize_filename ([97, 46] ++ List.replicate 255 120)).length ≤ 255) := by
  decide

/-- **C8 (amended).**  Sanitization strips directory components (no `/` in
the result) and preserves the extension as a suffix; the truncated result is
capped at 255 characters provided the extension itself is at most 255
characters (an over-long extension is preserved wholesale and the cap
fails). -/
theorem c8_sanitize_amended (name : List Nat) :
    (∀ x ∈ sanitize_filename name, x ≠ 47)
    ∧ ((splitext (pathBasename name)).2.length ≤ 255 →
        (sanitize_filename name).length ≤ 255)
    ∧ ∃ r, sanitize_filename name = r ++ (splitext (pathBasename name)).2 :=
  ⟨sanitize_filename_no_slash name, sanitize_filename_length name,
    sanitize_filename_ext name⟩

/-- **C8, witness.**  The amended sanitization at the traversal name
`"../d.t"`. -/
theorem c8_sanitize_amended_witness :
    (∀ x ∈ sanitize_filename [46, 46, 47, 100, 46, 116], x ≠ 47)
    ∧ (sanitize_filename [46, 46, 47, 100, 46, 116]).length ≤ 255 :=
  ⟨(c8_sanitize_amended [46, 46, 47, 100, 46, 116]).1,
    (c8_sanitize_amended [46, 46, 47, 100, 46, 116]).2.1 (by decide)⟩

/-- **C9.**  The dictionary invariant: the state starts at next code 256;
every canonical state satisfies `256 ≤ next_code ≤ 65536`; an insertion
increments `next_code` by one exactly while it is below 65536 and is a
no-op at the ceiling; every code the encoder emits is below 65536; and such
codes fit the fixed 2-byte big-endian serialization. -/
theorem c9_dictionary_invariant :
    reset_dictionary.next_code = 256
    ∧ (∀ A, 256 ≤ (stateOf A).next_code ∧ (stateOf A).next_code ≤ 65536)
    ∧ (∀ st key value, st.next_code < 65536 →
        (add_to_dictionary st key value).next_code = st.next_code + 1)
    ∧ (∀ st key value, ¬ st.next_code < 65536 → add_to_dictionary st key value = st)
    ∧ (∀ x codes, lzwEncodeCodes x = some codes → ∀ c ∈ codes, c < 65536)
    ∧ (∀ c, c < 65536 → (toBytesBE2 c).length = 2 ∧ ∀ b ∈ toBytesBE2 c, b < 256) := by
  refine ⟨rfl, ?_, ?_, ?_, ?_, ?_⟩
  · intro A
    rw [stateOf_next_code]
    omega
  · intro st key value h
    simp [add_to_dictionary, h]
  · intro st key value h
    simp [add_to_dictionary, h]
  · intro x codes h
    exact lzwEncodeCodes_lt h
  · intro c hc
    refine ⟨rfl, ?_⟩
    intro b hb
    simp only [toBytesBE2, List.mem_cons, List.not_mem_nil, or_false] at hb
    rcases hb with rfl | rfl
    · omega
    · omega

/-- **C9, witness.**  The emitted-code bound applied to the concrete
single-byte encode `lzwEncodeCodes [5] = some [5]`. -/
theorem c9_dictionary_invariant_witness : 5 < 65536 :=
  c9_dictionary_invariant.2.2.2.2.1 [5] [5] rfl 5 (by decide)

/-- **C10.**  Odd-length decode inputs are not rejected on length grounds:
the final unpaired byte parses as its own big-endian code (its byte value,
below 256), exactly as if the input were left-padded with one zero byte,
and the whole decode agrees with the decode of that padded input. -/
theorem c10_odd_length_decode (xs : List Nat) (b : Nat)
    (heven : xs.length % 2 = 0) (hb : b < 256) :
    from_bytes (xs ++ [b]) = from_bytes xs ++ [b]
    ∧ from_bytes (xs ++ [b]) = from_bytes (xs ++ [0, b])
    ∧ lzwDecode (xs ++ [b]) = lzwDecode (xs ++ [0, b])
    ∧ b < 256 := by
  have h1 := from_bytes_append_single xs b heven
  have h2 := from_bytes_append_pair xs 0 b heven
  have h12 : from_bytes (xs ++ [b]) = from_bytes (xs ++ [0, b]) := by
    rw [h1, h2]
    simp
  refine ⟨h1, h12, ?_, hb⟩
  unfold lzwDecode
  rw [h12]

/-- **C10, witness.**  The odd-length behavior at the 3-byte input
`[0, 65, 5]`. -/
theorem c10_odd_length_decode_witness :
    from_bytes [0, 65, 5] = from_bytes [0, 65] ++ [5]
    ∧ lzwDecode [0, 65, 5] = lzwDecode [0, 65, 0, 5] :=
  ⟨(c10_odd_length_decode [0, 65] 5 (by decide) (by decide)).1,
    (c10_odd_length_decode [0, 65] 5 (by decide) (by decide)).2.2.1⟩

end ERCHA
